import Mathlib

/-!
Verification of the classification-and-placement engine of the file-organizer
repository (src/fileOrganizer.js, src/categorizer.js, src/smartFileOrganizer.js),
as a shallow embedding in Lean.

File names and destination paths are modelled as `String` (operated on through
`String.data`, so that every operation is executable by the kernel); the
filesystem is a pair of lists of existing file and directory paths — archive
extraction materializes the extracted tree into it, and the scratch cleanup
fs.remove deletes the whole scratch subtree from it, files and directories
alike; a source tree is a value of the inductive type `Entry`, carrying for
each file the first bytes read by the signature sniffer and, for archives, the
tree its entries materialize.  JavaScript string operations (`toLowerCase`,
`trim`, `path.parse`, `path.extname`, template literals) are implemented over
character lists following Node's semantics for base names.
-/

/-! ## Character and string helpers -/

/-- ASCII whitespace, the core of both JavaScript `trim` and the regex class `\s`. -/
def wsChar (c : Char) : Bool :=
  c = ' ' || c = '\t' || c = '\n' || c = '\r' || c = '\x0b' || c = '\x0c'

/-- JavaScript `String.prototype.toLowerCase` (ASCII range). -/
def strLower (s : String) : String := ⟨s.data.map Char.toLower⟩

/-- JavaScript `String.prototype.trim`. -/
def trimB (s : String) : String :=
  ⟨((s.data.dropWhile wsChar).reverse.dropWhile wsChar).reverse⟩

/-- Boolean test that the first list is a leading segment of the second. -/
def startsWithL {α : Type} [DecidableEq α] : List α → List α → Bool
  | [], _ => true
  | _ :: _, [] => false
  | a :: as, b :: bs => a = b && startsWithL as bs

/-- Boolean substring test: `containsL needle hay`. -/
def containsL {α : Type} [DecidableEq α] (needle : List α) : List α → Bool
  | [] => startsWithL needle []
  | l@(_ :: t) => startsWithL needle l || containsL needle t

/-- Boolean test that the first list is a trailing segment of the second. -/
def endsWithL {α : Type} [DecidableEq α] (suffixL l : List α) : Bool :=
  startsWithL suffixL.reverse l.reverse

/-- Index of the last occurrence of `c` in `l`, if any. -/
def lastIdxOf (c : Char) (l : List Char) : Option Nat :=
  ((List.range l.length).filter (fun i => l.getD i ' ' = c)).getLast?

/-- Node `path.parse` applied to a base name: the pair (stem, extension-with-dot).
A dot at position 0 does not start an extension (hidden files such as ".txt" have
no extension), matching Node's behaviour. -/
def splitExt (name : String) : String × String :=
  match lastIdxOf '.' name.data with
  | some i => if i = 0 then (name, "") else (⟨name.data.take i⟩, ⟨name.data.drop i⟩)
  | none => (name, "")

/-- Node `path.dirname` and `path.basename` of a slash-separated path:
(dirname, basename).  A path with no slash has dirname ".". -/
def splitDir (p : String) : String × String :=
  match lastIdxOf '/' p.data with
  | some i => (⟨p.data.take i⟩, ⟨p.data.drop (i + 1)⟩)
  | none => (".", p)

/-- `p` lies at or below the directory path `q`: it is `q` itself or starts
with `q` followed by a path separator.  This is the reach of `fs.remove(q)`. -/
def pathUnderOrEq (q p : String) : Bool :=
  p == q || startsWithL (q ++ "/").data p.data

/-! ## Decimal rendering of counters

JavaScript renders the collision counter with a template literal; we model the
decimal rendering with a fuel-driven digit loop (structurally recursive, so the
kernel can evaluate it) and prove it injective via the evaluation map `valDec`. -/

/-- Digit loop: prepend the decimal digits of `n` to `acc` (fuel-driven). -/
def natToDecCore : Nat → Nat → List Char → List Char
  | 0, _, acc => acc
  | fuel + 1, n, acc =>
    if n < 10 then Nat.digitChar n :: acc
    else natToDecCore fuel (n / 10) (Nat.digitChar (n % 10) :: acc)

/-- Decimal digit list of `n` (no leading zeros, most significant first). -/
def natToDecList (n : Nat) : List Char := natToDecCore (n + 1) n []

/-- Decimal rendering of `n` as a string, as a JS template literal would produce. -/
def natToDec (n : Nat) : String := ⟨natToDecList n⟩

/-- Evaluation of a decimal digit list back to the number it denotes. -/
def valDec (l : List Char) : Nat :=
  l.foldl (fun a c => a * 10 + (c.toNat - 48)) 0

/-! ## The allow-list organizer (src/fileOrganizer.js)

State and options of one run.  `fsFiles`/`fsDirs` are the file and directory
paths existing on disk (the run's destination area plus anything that was
already there); `stats` is the mutable accumulator of the `FileOrganizer`
class (the fields the engine actually updates). -/

structure Options where
  outputDir : String
  extractArchives : Bool
  dryRun : Bool
  cleanupExtracted : Bool
  sevenZipAvailable : Bool
deriving DecidableEq, Repr

structure Stats where
  filesProcessed : Nat
  archivesExtracted : Nat
  errors : Nat
  skippedFiles : Nat
deriving DecidableEq, Repr

structure St where
  fsFiles : List String
  fsDirs : List String
  stats : Stats
deriving DecidableEq, Repr

/-- A source-tree entry as enumerated by `scanDirectory`.  For a file, `bytes`
is the 16-byte prefix read by `detectFileType` (`none` when the file cannot be
read); for archive files, `good` tells whether the archive opens and extracts
successfully and `content` is the tree its entries materialize under the
scratch directory (for non-archives both are irrelevant). -/
inductive Entry where
  | file (name : String) (bytes : Option (List Nat)) (good : Bool) (content : List Entry)
  | dir (name : String) (children : List Entry)

/-- The allow-list of recognized extensions (constructor, lines 33-36). -/
def allowedFileTypes : List String :=
  ["jpeg", "jpg", "png", "eps", "ai", "psd", "pdf", "crw", "zip", "rar", "svg", "cdr"]

/-- getFileExtension (lines 68-71): lowercased extension without the dot, or
"no-extension" when the name has none. -/
def getFileExtension (name : String) : String :=
  let ext := strLower (splitExt name).2
  if startsWithL ['.'] ext.data then ⟨ext.data.drop 1⟩
  else if ext = "" then "no-extension" else ext

/-- isAllowedFileType (lines 73-75). -/
def isAllowedFileType (extension : String) : Bool :=
  allowedFileTypes.contains (strLower extension)

/-- getFolderNameForExtension (lines 77-80). -/
def getFolderNameForExtension (extension : String) : String := strLower extension

/-- The character class replaced by sanitizeFileName's regex. -/
def invalidFileNameChar (c : Char) : Bool :=
  c = '<' || c = '>' || c = ':' || c = '"' || c = '/' || c = '\\' || c = '|' || c = '?' || c = '*'

/-- sanitizeFileName (lines 82-85). -/
def sanitizeFileName (fileName : String) : String :=
  trimB ⟨fileName.data.map (fun c => if invalidFileNameChar c then '_' else c)⟩

/-- The signature table of detectFileType (lines 114-124), in declaration order. -/
def signatures : List (String × List Nat) :=
  [("jpg", [0xFF, 0xD8, 0xFF]),
   ("jpeg", [0xFF, 0xD8, 0xFF]),
   ("png", [0x89, 0x50, 0x4E, 0x47]),
   ("pdf", [0x25, 0x50, 0x44, 0x46]),
   ("zip", [0x50, 0x4B, 0x03, 0x04]),
   ("rar", [0x52, 0x61, 0x72, 0x21]),
   ("eps", [0x25, 0x21, 0x50, 0x53]),
   ("psd", [0x38, 0x42, 0x50, 0x53])]

/-- Byte `i` of the zero-filled 16-byte buffer after reading the file prefix. -/
def bufAt (bytes : List Nat) (i : Nat) : Nat := (bytes.take 16).getD i 0

/-- signature.every((byte, index) => buffer[index] === byte). -/
def sigMatches (bytes : List Nat) (sig : List Nat) : Bool :=
  (List.range sig.length).all (fun i => bufAt bytes i = sig.getD i 0)

/-- detectFileType (lines 106-139): first matching signature wins, otherwise
(and also when the file cannot be read) fall back to the name's extension. -/
def detectFileType (name : String) (bytes : Option (List Nat)) : String :=
  match bytes with
  | none => getFileExtension name
  | some bs =>
    match signatures.find? (fun p => sigMatches bs p.2) with
    | some p => p.1
    | none => getFileExtension name

/-- getCorrectFileExtension (lines 141-154): the sniffed kind wins only when it
differs from the nominal extension and both are recognized.  (This function is
never called by the engine; `resolvedExtension` below is the rule the copy path
actually applies.) -/
def getCorrectFileExtension (name : String) (bytes : Option (List Nat)) : String :=
  let detectedType := detectFileType name bytes
  let currentExtension := getFileExtension name
  if detectedType != currentExtension && isAllowedFileType detectedType &&
      isAllowedFileType currentExtension
  then detectedType else currentExtension

/-- The extension copyFileToOrganizedLocation actually uses (lines 159-166):
the sniffed kind whenever that kind alone is recognized, otherwise the nominal
extension. -/
def resolvedExtension (name : String) (bytes : Option (List Nat)) : String :=
  let detectedType := detectFileType name bytes
  if isAllowedFileType detectedType then detectedType else getFileExtension name

/-- The destination file name built by copyFileToOrganizedLocation
(lines 176-186): rewritten to the resolved extension when it differs from the
nominal one. -/
def destFileName (name : String) (bytes : Option (List Nat)) : String :=
  let correctExtension := resolvedExtension name bytes
  if correctExtension != getFileExtension name
  then sanitizeFileName ((splitExt name).1 ++ "." ++ correctExtension)
  else sanitizeFileName name

/-- fs.pathExists against the modelled filesystem. -/
def pathExists (st : St) (p : String) : Bool :=
  st.fsFiles.contains p || st.fsDirs.contains p

/-- fs.ensureDir: record the directory as existing (no-op when it already does). -/
def ensureDir (d : String) (st : St) : St :=
  if st.fsDirs.contains d then st else { st with fsDirs := d :: st.fsDirs }

/-- fs.remove of a directory path: the path itself and everything at or below
it — files and directories alike, including files the run itself placed
there — disappear from the filesystem. -/
def removeTree (q : String) (st : St) : St :=
  { st with
    fsFiles := st.fsFiles.filter (fun p => !pathUnderOrEq q p),
    fsDirs := st.fsDirs.filter (fun p => !pathUnderOrEq q p) }

/-- The collision-probe candidates of lines 192-202: the nominal target path
first, then stem_1, stem_2, ... with the extension preserved. -/
def targetCandidate (targetDir fileName : String) : Nat → String
  | 0 => targetDir ++ "/" ++ fileName
  | k + 1 =>
    targetDir ++ "/" ++ (splitExt fileName).1 ++ "_" ++ natToDec (k + 1) ++ (splitExt fileName).2

/-- The while-loop of lines 192-202: probe candidates from index `k` until one
is not occupied.  `fuel` bounds the search; every call passes one more unit of
fuel than there are existing paths, so by injectivity of the candidates the
probe always succeeds (`findFreePath_isSome`) and the `none` case is dead. -/
def findFreePath (occupied : String → Bool) (cand : Nat → String) : Nat → Nat → Option String
  | 0, _ => none
  | fuel + 1, k =>
    if occupied (cand k) then findFreePath occupied cand fuel (k + 1) else some (cand k)

/-- copyFileToOrganizedLocation (lines 156-223).  Returns the final target path
(`none` for a skipped file) and the updated state.  In dry-run mode resolution
still happens but nothing is written. -/
def copyFileToOrganizedLocation (o : Options) (name : String) (bytes : Option (List Nat))
    (basePath : String) (st : St) : Option String × St :=
  let correctExtension := resolvedExtension name bytes
  if !isAllowedFileType correctExtension then
    (none, { st with stats := { st.stats with skippedFiles := st.stats.skippedFiles + 1 } })
  else
    let folderName := getFolderNameForExtension correctExtension
    let finalFileName := destFileName name bytes
    let targetDir := basePath ++ "/" ++ o.outputDir ++ "/" ++ folderName
    match findFreePath (pathExists st) (targetCandidate targetDir finalFileName)
        (st.fsFiles.length + st.fsDirs.length + 1) 0 with
    | none =>
      (none, { st with stats := { st.stats with errors := st.stats.errors + 1 } })
    | some finalTargetPath =>
      let st1 :=
        if o.dryRun then st
        else
          let stC := ensureDir targetDir st
          { stC with fsFiles := finalTargetPath :: stC.fsFiles }
      (some finalTargetPath,
       { st1 with stats := { st1.stats with filesProcessed := st1.stats.filesProcessed + 1 } })

/-- isArchiveFile (lines 259-263). -/
def isArchiveFile (extension : String) : Bool :=
  ["zip", "rar"].contains (strLower extension)

/-- The file paths a successful extraction writes under `dir` for a content
tree: one per file entry, at the entry's name chain joined with '/'. -/
def materializeFiles (dir : String) : List Entry → List String
  | [] => []
  | Entry.file name _ _ _ :: rest => (dir ++ "/" ++ name) :: materializeFiles dir rest
  | Entry.dir name children :: rest =>
    materializeFiles (dir ++ "/" ++ name) children ++ materializeFiles dir rest

/-- The directory paths a successful extraction creates under `dir` for a
content tree: one per directory entry, at the entry's name chain joined
with '/'. -/
def materializeDirs (dir : String) : List Entry → List String
  | [] => []
  | Entry.file _ _ _ _ :: rest => materializeDirs dir rest
  | Entry.dir name children :: rest =>
    (dir ++ "/" ++ name) ::
      (materializeDirs (dir ++ "/" ++ name) children ++ materializeDirs dir rest)

/-- extractArchive (lines 310-339).  Returns the scratch path (`none` on
failure) together with whether the scratch directory was actually populated,
and the updated state.  A successful extraction materializes the archive's
content tree on disk below the scratch path — those files and directories
enter the probed filesystem and are seen by every later fs.pathExists check.
In dry-run the path is returned without any extraction; on a failed extraction
the scratch directory just created by `ensureDirectory` is left behind
(nothing removes it on that path). -/
def extractArchive (o : Options) (name : String) (good : Bool) (content : List Entry)
    (basePath : String) (st : St) : (Option String × Bool) × St :=
  let extension := getFileExtension name
  let extractDir := basePath ++ "/" ++ "temp_extract" ++ "/" ++ (splitExt name).1
  if o.dryRun then
    ((some extractDir, false),
     { st with stats := { st.stats with archivesExtracted := st.stats.archivesExtracted + 1 } })
  else
    let st1 := ensureDir extractDir st
    if extension = "zip" then
      if good then
        ((some extractDir, true),
         { st1 with
            fsFiles := materializeFiles extractDir content ++ st1.fsFiles,
            fsDirs := materializeDirs extractDir content ++ st1.fsDirs,
            stats :=
              { st1.stats with archivesExtracted := st1.stats.archivesExtracted + 1 } })
      else
        ((none, false), { st1 with stats := { st1.stats with errors := st1.stats.errors + 1 } })
    else if extension = "rar" || extension = "7z" then
      if o.sevenZipAvailable && good then
        ((some extractDir, true),
         { st1 with
            fsFiles := materializeFiles extractDir content ++ st1.fsFiles,
            fsDirs := materializeDirs extractDir content ++ st1.fsDirs,
            stats :=
              { st1.stats with archivesExtracted := st1.stats.archivesExtracted + 1 } })
      else
        ((none, false), { st1 with stats := { st1.stats with errors := st1.stats.errors + 1 } })
    else
      ((none, false), st1)

/-- scanDirectory (lines 225-257), with handleArchiveFile (lines 265-308)
inlined at its call site so that the recursion into an archive's extracted
content is structural.  Returns the list of destination paths the walk placed
files at (in order) and the final state.

Per entry: a subdirectory whose base name equals the configured output
directory is skipped before descending; other subdirectories are walked
recursively; an archive file (when extraction is enabled) is extracted to its
scratch directory, the materialized tree is walked with the same `basePath`,
the whole scratch subtree is removed (outside dry-run, unless retention is
configured) — together with every file the run itself placed below it — and
the archive file itself is then copied; any other file is copied.  In dry-run
the scratch path returned by `extractArchive` was never created, so reading it
fails and is counted as one error, exactly as fs.readdir does in the source.

The walk of the freshly created scratch directory is taken to enumerate the
archive's content tree; this coincides with fs.readdir of the scratch
directory exactly when nothing pre-exists at or below the scratch path, so the
archive-expansion theorems below carry that emptiness hypothesis
(`scratchClear`). -/
def scanDirectory (o : Options) (basePath : String) : List Entry → St → List String × St
  | [], st => ([], st)
  | Entry.dir name children :: rest, st =>
    if name = o.outputDir then
      scanDirectory o basePath rest st
    else
      let pr1 := scanDirectory o basePath children st
      let pr2 := scanDirectory o basePath rest pr1.2
      (pr1.1 ++ pr2.1, pr2.2)
  | Entry.file name bytes good content :: rest, st =>
    if o.extractArchives && isArchiveFile (getFileExtension name) then
      let r := extractArchive o name good content basePath st
      let prA :=
        if r.1.1.isSome then
          let extractedPath := r.1.1.getD ""
          let prE :=
            if r.1.2 then scanDirectory o basePath content r.2
            else ([], { r.2 with stats := { r.2.stats with errors := r.2.stats.errors + 1 } })
          let st3 :=
            if !o.dryRun && o.cleanupExtracted then removeTree extractedPath prE.2
            else prE.2
          (prE.1, st3)
        else ([], r.2)
      let prC := copyFileToOrganizedLocation o name bytes basePath prA.2
      let prR := scanDirectory o basePath rest prC.2
      (prA.1 ++ prC.1.toList ++ prR.1, prR.2)
    else
      let prC := copyFileToOrganizedLocation o name bytes basePath st
      let prR := scanDirectory o basePath rest prC.2
      (prC.1.toList ++ prR.1, prR.2)

/-- Removal of every subdirectory named like the output directory, at every
directory depth of the source tree, used to state that the walk never descends
into such directories.  Archive content is left untouched: extraction writes
all of it to disk regardless, and the walk of the extracted tree re-enters
`scanDirectory`, where the same guard (quantified over all entry lists in the
statements below) applies again. -/
def pruneOutput (o : Options) : List Entry → List Entry
  | [] => []
  | Entry.dir name children :: rest =>
    if name = o.outputDir then pruneOutput o rest
    else Entry.dir name (pruneOutput o children) :: pruneOutput o rest
  | Entry.file name bytes good content :: rest =>
    Entry.file name bytes good content :: pruneOutput o rest

/-! ## The smart categorizer (src/categorizer.js)

The regex patterns of specialPatterns are modelled as boolean matchers over the
file name; all patterns carry the /i flag, so matching happens on the lowercased
name against lowercase literals.  The icon/description display metadata of the
tables is omitted. -/

/-- A /lit/i regex with no metacharacters: case-insensitive substring test. -/
def reContains (lit : String) (fileName : String) : Bool :=
  containsL lit.data (strLower fileName).data

/-- A /lit$/i regex whose body has no metacharacters (a leading \. stands for a
literal dot): case-insensitive suffix test. -/
def reEndsWith (lit : String) (fileName : String) : Bool :=
  endsWithL lit.data (strLower fileName).data

/-- Strip `pre` from the front of `l` if it is a leading segment. -/
def dropPre : List Char → List Char → Option (List Char)
  | [], l => some l
  | _ :: _, [] => none
  | a :: as, b :: bs => if a = b then dropPre as bs else none

/-- Match of /screen\s*shot/ anchored at the head of `l` (lowercased input);
after the literal "screen", maximal munch of `\s*` is exact because 's' is not
a whitespace character. -/
def screenShotHere (l : List Char) : Bool :=
  match dropPre "screen".data l with
  | some rest => startsWithL "shot".data (rest.dropWhile (fun c => wsChar c))
  | none => false

/-- Search of /screen\s*shot/ over all positions. -/
def screenShotScan : List Char → Bool
  | [] => false
  | l@(_ :: t) => screenShotHere l || screenShotScan t

/-- The /screen\s*shot/i regex of the Screenshots pattern. -/
def reScreenWsShot (fileName : String) : Bool :=
  screenShotScan (strLower fileName).data

/-- The specialPatterns table (lines 84-109), in declaration order:
(category name, regex matchers, parentCategory). -/
def specialPatterns : List (String × List (String → Bool) × Option String) :=
  [("Screenshots", ([reContains "screenshot", reScreenWsShot, reContains "capture"],
      some "Images")),
   ("Downloads", ([reContains "download", reContains "temp", reContains "tmp"], none)),
   ("Backups", ([reContains "backup", reEndsWith "bak", reEndsWith ".old",
      reEndsWith ".backup"], none)),
   ("Logs", ([reEndsWith ".log", reEndsWith ".txt"], some "Documents"))]

/-- pattern.patterns.some(regex => regex.test(fileName)). -/
def matchesSpecial (fileName : String) (pat : String × List (String → Bool) × Option String) :
    Bool :=
  pat.2.1.any (fun re => re fileName)

/-- The categories table (lines 6-82), in declaration order:
(category name, extension set). -/
def categoriesTable : List (String × List String) :=
  [("Documents", ["pdf", "doc", "docx", "txt", "rtf", "odt", "pages", "tex", "wpd", "md",
     "markdown"]),
   ("Spreadsheets", ["xls", "xlsx", "csv", "ods", "numbers"]),
   ("Presentations", ["ppt", "pptx", "odp", "key"]),
   ("Images", ["jpg", "jpeg", "png", "gif", "bmp", "tiff", "tif", "svg", "webp", "ico", "raw",
     "cr2", "nef", "arw"]),
   ("Videos", ["mp4", "avi", "mkv", "mov", "wmv", "flv", "webm", "m4v", "3gp", "mpg", "mpeg"]),
   ("Audio", ["mp3", "wav", "flac", "aac", "ogg", "wma", "m4a", "opus"]),
   ("Archives", ["zip", "rar", "7z", "tar", "gz", "bz2", "xz", "cab", "iso"]),
   ("Code", ["js", "html", "css", "py", "java", "cpp", "c", "h", "php", "rb", "go", "rs",
     "swift", "kt"]),
   ("Design", ["psd", "ai", "eps", "indd", "sketch", "fig", "xd", "cdr"]),
   ("Fonts", ["ttf", "otf", "woff", "woff2", "eot"]),
   ("Executables", ["exe", "msi", "dmg", "pkg", "deb", "rpm", "appimage"]),
   ("Data", ["json", "xml", "yaml", "yml", "sql", "db", "sqlite"]),
   ("Ebooks", ["epub", "mobi", "azw", "azw3", "fb2"]),
   ("CAD", ["dwg", "dxf", "step", "stp", "iges", "igs"]),
   ("Virtual", ["vmdk", "vdi", "vhd", "vhdx", "ova", "ovf"])]

/-- path.extname(fileName).toLowerCase().slice(1) as computed by categorizeFile
(line 114): the empty string for extensionless names. -/
def categorizerExtension (fileName : String) : String :=
  ⟨(strLower (splitExt fileName).2).data.drop 1⟩

/-- The result record of categorizeFile (icon/description metadata omitted). -/
structure Categorization where
  category : String
  subcategory : Option String
  isSpecial : Bool
deriving DecidableEq, Repr

/-- categorizeFile (lines 112-150): special patterns first in declaration
order, then the category tables in declaration order, then the Other fallback
keyed by the extension (or "no-extension"). -/
def categorizeFile (fileName : String) : Categorization :=
  let extension := categorizerExtension fileName
  match specialPatterns.find? (fun pat => matchesSpecial fileName pat) with
  | some pat => ⟨pat.1, pat.2.2, true⟩
  | none =>
    match categoriesTable.find? (fun c => c.2.contains extension) with
    | some c => ⟨c.1, none, false⟩
    | none => ⟨"Other", some (if extension = "" then "no-extension" else extension), false⟩

/-! ## Zip extraction at the path level (extractZip, src/fileOrganizer.js 341-404)

The per-entry path arithmetic of extractZip, modelled on '/'-separated path
segments with Node path.join normalization (which resolves ".." segments, also
up through the base).  This is the level at which entry names that climb out of
the scratch directory become visible. -/

/-- The organization.handleDuplicates configuration values. -/
inductive DupMode where
  | skip
  | overwrite
  | rename
deriving DecidableEq, Repr

/-- handleDuplicates (lines 339-371) against the list of existing destination
paths: a free nominal path is returned as is; an occupied one is skipped,
overwritten, or renamed with the _1, _2, ... probe of the default branch
(counter starting at 1, extension preserved). -/
def handleDuplicates (config : DupMode) (fsFiles : List String) (targetPath : String) :
    Option String :=
  if !fsFiles.contains targetPath then some targetPath
  else
    match config with
    | DupMode.skip => none
    | DupMode.overwrite => some targetPath
    | DupMode.rename =>
      let ext := (splitExt (splitDir targetPath).2).2
      let base := (splitExt (splitDir targetPath).2).1
      let dir := (splitDir targetPath).1
      findFreePath (fun p => fsFiles.contains p)
        (fun k => dir ++ "/" ++ base ++ "_" ++ natToDec (k + 1) ++ ext)
        (fsFiles.length + 1) 0

/-- processFile (lines 284-337) restricted to its placement steps: each nominal
target is resolved through handleDuplicates and, when the resolution is
non-null, the copy creates the resolved path.  Returns the assigned destination
of every input in order, and the final filesystem. -/
def smartPlace (config : DupMode) : List String → List String → List (Option String) × List String
  | [], fsFiles => ([], fsFiles)
  | t :: ts, fsFiles =>
    let r := handleDuplicates config fsFiles t
    let fs1 := match r with | some p => p :: fsFiles | none => fsFiles
    let pr := smartPlace config ts fs1
    (r :: pr.1, pr.2)

/-! ## Scanning phase of the smart organizer (src/smartFileOrganizer.js 116-206)

`organizeDirectories` runs its phases in order: scanning (phase 1, line 66)
happens strictly before `setupOutputStructure` (phase 3, line 78), and the
constructor initializes `this.outputStructure = null` (line 37).  The scanning
functions therefore run with `outputStructure` still null; it is modelled here
as an explicit `Option String` parameter holding the destination root once
set. -/

/-- A source-tree entry as seen by the smart organizer's scanner: name plus
stat.size for files. -/
inductive SEntry where
  | file (name : String) (size : Nat)
  | dir (name : String) (children : List SEntry)

/-- The config.filters fields consulted while scanning. -/
structure SmartFilters where
  excludeHidden : Bool
  minFileSize : Nat
  maxFileSize : Nat
  excludeExtensions : List String
  includeExtensions : List String
deriving DecidableEq, Repr

/-- The systemDirs list of shouldSkipDirectory (line 166). -/
def systemDirs : List String :=
  ["System Volume Information", "$RECYCLE.BIN", "node_modules", ".git"]

/-- shouldSkipDirectory (lines 156-177): hidden directories (when configured),
system directories, and — only once `outputStructure` has been set — any path
starting with the destination root.  During the scanning phase
`outputStructure` is still null, so the last check never fires there. -/
def shouldSkipDirectory (outputStructure : Option String) (excludeHidden : Bool)
    (dirPath : String) : Bool :=
  let dirName := (splitDir dirPath).2
  if excludeHidden && startsWithL ['.'] dirName.data then true
  else if systemDirs.contains dirName then true
  else
    match outputStructure with
    | some outputPath => startsWithL outputPath.data dirPath.data
    | none => false

/-- shouldIncludeFile (lines 179-206): hidden-file, size-window and
extension-filter tests, in source order. -/
def shouldIncludeFile (f : SmartFilters) (filePath : String) (size : Nat) : Bool :=
  let fileName := (splitDir filePath).2
  let extension : String := ⟨(strLower (splitExt fileName).2).data.drop 1⟩
  if f.excludeHidden && startsWithL ['.'] fileName.data then false
  else if 0 < f.minFileSize ∧ size < f.minFileSize then false
  else if 0 < f.maxFileSize ∧ f.maxFileSize < size then false
  else if f.excludeExtensions ≠ [] ∧ f.excludeExtensions.contains extension = true then false
  else if f.includeExtensions ≠ [] ∧ f.includeExtensions.contains extension = false then false
  else true

/-- scanDirectoryRecursive (lines 116-154): collect (path, size) of every
included file, descending into subdirectories not rejected by
shouldSkipDirectory.  `outputStructure` is threaded through unchanged — during
the scanning phase the caller passes `none`. -/
def scanDirectoryRecursive (outputStructure : Option String) (f : SmartFilters)
    (dirPath : String) : List SEntry → List (String × Nat)
  | [] => []
  | SEntry.dir name children :: rest =>
    (if shouldSkipDirectory outputStructure f.excludeHidden (dirPath ++ "/" ++ name) then []
     else scanDirectoryRecursive outputStructure f (dirPath ++ "/" ++ name) children) ++
    scanDirectoryRecursive outputStructure f dirPath rest
  | SEntry.file name size :: rest =>
    (if shouldIncludeFile f (dirPath ++ "/" ++ name) size then [(dirPath ++ "/" ++ name, size)]
     else []) ++
    scanDirectoryRecursive outputStructure f dirPath rest


/-! ## Derived definitions used in the statements -/

/-- The destination directory copyFileToOrganizedLocation builds for a file. -/
def targetDirFor (o : Options) (basePath name : String) (bytes : Option (List Nat)) : String :=
  basePath ++ "/" ++ o.outputDir ++ "/" ++ getFolderNameForExtension (resolvedExtension name bytes)

/-- The resolved extension of a tree entry (empty on directories). -/
def entryResolved : Entry → String
  | Entry.file name bytes _ _ => resolvedExtension name bytes
  | Entry.dir _ _ => ""

/-- A destination path lies directly inside the category folder of extension
`extension` of this run's destination root. -/
def inFolder (o : Options) (basePath extension p : String) : Prop :=
  ∃ nm,
    p = basePath ++ "/" ++ o.outputDir ++ "/" ++ getFolderNameForExtension extension ++ "/" ++ nm

/-- A plain classifiable file: not an archive, and with a recognized resolved
extension. -/
def plainAllowedFile : Entry → Bool
  | Entry.file name bytes _ _ =>
    !isArchiveFile (getFileExtension name) && isAllowedFileType (resolvedExtension name bytes)
  | Entry.dir _ _ => false

/-- No file entry of the tree has an archive extension, so no extraction can
start anywhere in the walk. -/
def hasNoArchiveEntry : List Entry → Bool
  | [] => true
  | Entry.file name _ _ _ :: rest =>
    !isArchiveFile (getFileExtension name) && hasNoArchiveEntry rest
  | Entry.dir _ children :: rest => hasNoArchiveEntry children && hasNoArchiveEntry rest

/-- A path lies inside this run's output area, strictly below
basePath/outputDir. -/
def outArea (o : Options) (basePath p : String) : Bool :=
  startsWithL (basePath ++ "/" ++ o.outputDir ++ "/").data p.data

/-- Nothing in the filesystem lies at or below the path `q`.  Instantiated at
an archive's scratch path this says the scratch location is initially clear,
which is exactly when the modelled walk of the scratch directory (the
archive's content tree) coincides with fs.readdir of the directory the
extraction just created. -/
def scratchClear (q : String) (st : St) : Prop :=
  (st.fsFiles ++ st.fsDirs).all (fun p => !pathUnderOrEq q p) = true

/-- Specification of one placement batch starting from `st`, for runs whose
output area stays disjoint from the scratch area: every placed path is new
relative to the starting files, every placed path exists among the final
files and lies inside the output area, files already inside the output area
are preserved (scratch content, by contrast, may be deleted by cleanup), and
the placed paths are pairwise distinct. -/
def OutSpec (o : Options) (basePath : String) (st : St) (ps : List String) (st2 : St) : Prop :=
  (∀ p ∈ ps, p ∉ st.fsFiles) ∧ (∀ p ∈ ps, p ∈ st2.fsFiles) ∧
  (∀ q ∈ st.fsFiles, outArea o basePath q = true → q ∈ st2.fsFiles) ∧
  ps.Nodup ∧ (∀ p ∈ ps, outArea o basePath p = true)

/-- The constructor defaults of FileOrganizer: organized_files output, archive
extraction and scratch cleanup on, not a dry run. -/
def oStd : Options := ⟨"organized_files", true, false, true, false⟩

/-- The constructor defaults in preview (dry-run) mode. -/
def oDry : Options := ⟨"organized_files", true, true, true, false⟩

/-- An empty starting filesystem with fresh stats. -/
def st0 : St := ⟨[], [], ⟨0, 0, 0, 0⟩⟩

/-- Leading bytes of a JPEG file. -/
def jpegBytes : List Nat := [0xFF, 0xD8, 0xFF]

/-- Leading bytes of a zip file. -/
def zipBytes : List Nat := [0x50, 0x4B, 0x03, 0x04]

/-- A source tree holding one good zip archive that contains one classifiable
image. -/
def zipTree : List Entry :=
  [Entry.file "a.zip" (some zipBytes) true [Entry.file "x.jpg" (some jpegBytes) true []]]

/-- Two distinct source files with the same base name. -/
def twoJpgs : List Entry :=
  [Entry.file "a.jpg" (some jpegBytes) true [], Entry.file "a.jpg" (some jpegBytes) true []]

/-- The aliasing configuration: the output directory named like the scratch
root, everything else as the defaults. -/
def oAlias : Options := ⟨"temp_extract", true, false, true, false⟩

/-- A good zip named jpg.zip containing x.jpg, followed by a source file
x_1.jpg (the alphabetical readdir order). -/
def aliasTree : List Entry :=
  [Entry.file "jpg.zip" (some zipBytes) true [Entry.file "x.jpg" (some jpegBytes) true []],
   Entry.file "x_1.jpg" (some jpegBytes) true []]

/-- The smart organizer's default filters: hidden files excluded, no size
window, no extension filters. -/
def f0 : SmartFilters := ⟨true, 0, 0, [], []⟩

/-! ## Helper lemmas on strings and decimal rendering -/

theorem splitExt_append (name : String) :
    (splitExt name).1 ++ (splitExt name).2 = name := by
  unfold splitExt
  cases h : lastIdxOf '.' name.data with
  | none => simp
  | some i =>
    by_cases hi : i = 0
    · simp [hi]
    · simp only [hi, if_false]
      show String.mk (name.data.take i ++ name.data.drop i) = name
      rw [List.take_append_drop]

theorem natToDecCore_append (fuel : Nat) :
    ∀ n acc, natToDecCore fuel n acc = natToDecCore fuel n [] ++ acc := by
  induction fuel with
  | zero => intro n acc; simp [natToDecCore]
  | succ fuel ih =>
    intro n acc
    by_cases h : n < 10
    · simp [natToDecCore, h]
    · simp only [natToDecCore, h, if_false]
      rw [ih (n / 10) (Nat.digitChar (n % 10) :: acc), ih (n / 10) [Nat.digitChar (n % 10)]]
      simp

theorem natToDecCore_fuel_irrel (fuel1 : Nat) :
    ∀ fuel2 n acc, n < fuel1 → n < fuel2 →
      natToDecCore fuel1 n acc = natToDecCore fuel2 n acc := by
  induction fuel1 with
  | zero => intro fuel2 n acc h1 _; omega
  | succ fuel1 ih =>
    intro fuel2 n acc h1 h2
    cases fuel2 with
    | zero => omega
    | succ fuel2 =>
      by_cases h : n < 10
      · simp [natToDecCore, h]
      · simp only [natToDecCore, h, if_false]
        exact ih fuel2 (n / 10) _ (by omega) (by omega)

theorem natToDecList_eq (n : Nat) :
    natToDecList n =
      if n < 10 then [Nat.digitChar n]
      else natToDecList (n / 10) ++ [Nat.digitChar (n % 10)] := by
  by_cases h : n < 10
  · simp [natToDecList, natToDecCore, h]
  · simp only [h, if_false]
    show natToDecCore (n + 1) n [] = _
    have h1 : natToDecCore (n + 1) n [] = natToDecCore n (n / 10) [Nat.digitChar (n % 10)] := by
      simp [natToDecCore, h]
    rw [h1, natToDecCore_fuel_irrel n (n / 10 + 1) (n / 10) _ (by omega) (by omega),
      natToDecCore_append]
    rfl

theorem valDec_append_digit (l : List Char) (c : Char) :
    valDec (l ++ [c]) = valDec l * 10 + (c.toNat - 48) := by
  simp [valDec, List.foldl_append]

theorem digitChar_toNat : ∀ d < 10, (Nat.digitChar d).toNat - 48 = d := by decide

theorem valDec_natToDecList (n : Nat) : valDec (natToDecList n) = n := by
  induction n using Nat.strong_induction_on with
  | _ n ih =>
    rw [natToDecList_eq]
    by_cases h : n < 10
    · simp only [h, if_true, valDec, List.foldl]
      have := digitChar_toNat n h
      omega
    · simp only [h, if_false]
      rw [valDec_append_digit, ih (n / 10) (by omega)]
      have := digitChar_toNat (n % 10) (Nat.mod_lt n (by omega))
      omega

theorem natToDecList_inj {m n : Nat} (h : natToDecList m = natToDecList n) : m = n := by
  have := valDec_natToDecList m
  rw [h, valDec_natToDecList] at this
  omega

/-! ## Properties of the collision probe -/

theorem strData_eq {x y : String} (h : x.data = y.data) : x = y := by
  cases x; cases y; simp only at h; rw [h]

theorem findFreePath_not_occupied (occupied : String → Bool) (cand : Nat → String) :
    ∀ fuel k p, findFreePath occupied cand fuel k = some p → occupied p = false := by
  intro fuel
  induction fuel with
  | zero => intro k p h; simp [findFreePath] at h
  | succ fuel ih =>
    intro k p h
    cases hc : occupied (cand k) with
    | true =>
      simp only [findFreePath, hc, if_true] at h
      exact ih (k + 1) p h
    | false =>
      simp only [findFreePath, hc, Bool.false_eq_true, if_false, Option.some.injEq] at h
      rw [← h]
      exact hc

theorem findFreePath_mem (occupied : String → Bool) (cand : Nat → String) :
    ∀ fuel k p, findFreePath occupied cand fuel k = some p → ∃ j, p = cand j := by
  intro fuel
  induction fuel with
  | zero => intro k p h; simp [findFreePath] at h
  | succ fuel ih =>
    intro k p h
    cases hc : occupied (cand k) with
    | true =>
      simp only [findFreePath, hc, if_true] at h
      exact ih (k + 1) p h
    | false =>
      simp only [findFreePath, hc, Bool.false_eq_true, if_false, Option.some.injEq] at h
      exact ⟨k, h.symm⟩

theorem findFreePath_isSome (occupied : String → Bool) (cand : Nat → String) :
    ∀ fuel k, (∃ j, j < fuel ∧ occupied (cand (k + j)) = false) →
      ∃ p, findFreePath occupied cand fuel k = some p := by
  intro fuel
  induction fuel with
  | zero =>
    intro k h
    obtain ⟨j, hj, _⟩ := h
    omega
  | succ fuel ih =>
    intro k h
    obtain ⟨j, hj, hfree⟩ := h
    cases hc : occupied (cand k) with
    | true =>
      simp only [findFreePath, hc, if_true]
      apply ih (k + 1)
      have hj0 : j ≠ 0 := by
        intro h0
        rw [h0, Nat.add_zero] at hfree
        rw [hfree] at hc
        exact Bool.false_ne_true hc
      refine ⟨j - 1, by omega, ?_⟩
      have harith : k + 1 + (j - 1) = k + j := by omega
      rw [harith]
      exact hfree
    | false =>
      simp only [findFreePath, hc, Bool.false_eq_true, if_false]
      exact ⟨cand k, rfl⟩

/-- Pigeonhole: an injective candidate family cannot be entirely contained in
the (finite) list of occupied paths, so some candidate with index at most the
list's length is free. -/
theorem exists_free_cand (L : List String) (occupied : String → Bool)
    (hO : ∀ p, occupied p = true → p ∈ L) (cand : Nat → String)
    (hinj : Function.Injective cand) :
    ∃ j, j < L.length + 1 ∧ occupied (cand j) = false := by
  by_contra hall
  push_neg at hall
  have hmem : ∀ j, j < L.length + 1 → cand j ∈ L := by
    intro j hj
    have hne := hall j hj
    apply hO (cand j)
    cases hcase : occupied (cand j) with
    | false => exact absurd hcase hne
    | true => rfl
  have hsub : (Finset.range (L.length + 1)).image cand ⊆ L.toFinset := by
    intro p hp
    rw [Finset.mem_image] at hp
    obtain ⟨j, hj, rfl⟩ := hp
    rw [List.mem_toFinset]
    exact hmem j (Finset.mem_range.mp hj)
  have hcard : ((Finset.range (L.length + 1)).image cand).card = L.length + 1 := by
    rw [Finset.card_image_of_injective _ hinj, Finset.card_range]
  have hle := Finset.card_le_card hsub
  rw [hcard] at hle
  have := L.toFinset_card_le
  omega

theorem length_strAppend (a b : String) :
    (a ++ b).data.length = a.data.length + b.data.length := by
  rw [String.data_append, List.length_append]

/-! ## Prefix and path-separation lemmas

The scratch cleanup removes a whole subtree; these lemmas show that when the
output directory name is slash-free and differs from "temp_extract", no path
of the output area is reached by the removal of any scratch directory. -/

theorem startsWithL_iff {α : Type} [DecidableEq α] :
    ∀ (a b : List α), startsWithL a b = true ↔ ∃ t, b = a ++ t := by
  intro a
  induction a with
  | nil => intro b; simp [startsWithL]
  | cons x as ih =>
    intro b
    cases b with
    | nil =>
      simp only [startsWithL]
      constructor
      · intro h; exact absurd h Bool.false_ne_true
      · rintro ⟨t, ht⟩; exact absurd ht (by simp)
    | cons y bs =>
      simp only [startsWithL, Bool.and_eq_true, decide_eq_true_eq]
      constructor
      · rintro ⟨rfl, h⟩
        obtain ⟨t, rfl⟩ := (ih bs).mp h
        exact ⟨t, rfl⟩
      · rintro ⟨t, ht⟩
        rw [List.cons_append] at ht
        injection ht with h1 h2
        exact ⟨h1.symm, (ih bs).mpr ⟨t, h2⟩⟩

theorem startsWithL_append {α : Type} [DecidableEq α] (a t : List α) :
    startsWithL a (a ++ t) = true :=
  (startsWithL_iff a (a ++ t)).mpr ⟨t, rfl⟩

/-- Two slash-free path components followed by a separator agree when the full
strings agree. -/
theorem slash_component_eq :
    ∀ (a b x y : List Char), '/' ∉ a → '/' ∉ b → a ++ '/' :: x = b ++ '/' :: y → a = b := by
  intro a
  induction a with
  | nil =>
    intro b x y _ hb h
    cases b with
    | nil => rfl
    | cons d bs =>
      rw [List.nil_append, List.cons_append] at h
      injection h with h1 _
      exact absurd (by rw [← h1]; exact List.mem_cons_self _ _) hb
  | cons c as ih =>
    intro b x y ha hb h
    cases b with
    | nil =>
      rw [List.nil_append, List.cons_append] at h
      injection h with h1 _
      exact absurd (by rw [h1]; exact List.mem_cons_self _ _) ha
    | cons d bs =>
      rw [List.cons_append, List.cons_append] at h
      injection h with h1 h2
      rw [h1, ih bs x y (fun hm => ha (List.mem_cons_of_mem _ hm))
        (fun hm => hb (List.mem_cons_of_mem _ hm)) h2]

theorem slashfree_clash {B a b u v : List Char} (ha : '/' ∉ a) (hb : '/' ∉ b)
    (hne : a ≠ b) (h : B ++ '/' :: (a ++ '/' :: u) = B ++ '/' :: (b ++ '/' :: v)) : False := by
  have h2 := List.append_cancel_left h
  injection h2 with _ h3
  exact hne (slash_component_eq a b u v ha hb h3)

/-- Paths inside the output area of a run whose output directory name is
slash-free and differs from "temp_extract" are out of reach of the removal of
any scratch directory basePath/temp_extract/stem. -/
theorem outArea_not_under_scratch (o : Options) (basePath stem p : String)
    (hnos : '/' ∉ o.outputDir.data) (hne : o.outputDir ≠ "temp_extract")
    (hp : outArea o basePath p = true) :
    pathUnderOrEq (basePath ++ "/" ++ "temp_extract" ++ "/" ++ stem) p = false := by
  have hsl : ("/" : String).data = ['/'] := rfl
  have hted : '/' ∉ ("temp_extract" : String).data := by decide
  have hned : "temp_extract".data ≠ o.outputDir.data := by
    intro h
    exact hne (strData_eq h.symm)
  obtain ⟨t, ht⟩ := (startsWithL_iff _ _).mp hp
  simp only [String.data_append, hsl, List.append_assoc, List.singleton_append] at ht
  rw [pathUnderOrEq, Bool.or_eq_false_iff]
  constructor
  · rw [beq_eq_false_iff_ne]
    intro hpq
    have hd := congrArg String.data hpq
    rw [ht] at hd
    simp only [String.data_append, hsl, List.append_assoc, List.singleton_append] at hd
    exact slashfree_clash hnos hted hned.symm hd
  · cases hsw : startsWithL ((basePath ++ "/" ++ "temp_extract" ++ "/" ++ stem ++ "/")).data
      p.data with
    | false => rfl
    | true =>
      exfalso
      obtain ⟨u, hu⟩ := (startsWithL_iff _ _).mp hsw
      rw [ht] at hu
      simp only [String.data_append, hsl, List.append_assoc, List.singleton_append] at hu
      exact slashfree_clash hnos hted hned.symm hu

/-- Every path of the form basePath/outputDir/folder/name lies inside the
output area. -/
theorem outArea_place (o : Options) (basePath ext p : String)
    (h : inFolder o basePath ext p) : outArea o basePath p = true := by
  obtain ⟨nm, rfl⟩ := h
  rw [outArea]
  have hsplit : (basePath ++ "/" ++ o.outputDir ++ "/" ++ getFolderNameForExtension ext
        ++ "/" ++ nm).data =
      (basePath ++ "/" ++ o.outputDir ++ "/").data
        ++ (getFolderNameForExtension ext ++ "/" ++ nm).data := by
    simp only [String.data_append, List.append_assoc]
  rw [hsplit]
  exact startsWithL_append _ _

/-- The probe candidates of copyFileToOrganizedLocation are pairwise distinct:
the suffixed names are longer than the plain one, and two suffixed names with
different counters differ in their decimal digits. -/
theorem targetCandidate_injective (targetDir fileName : String) :
    Function.Injective (targetCandidate targetDir fileName) := by
  have hsplit : (splitExt fileName).1.data.length + (splitExt fileName).2.data.length
      = fileName.data.length := by
    have h := congrArg (fun s => s.data.length) (splitExt_append fileName)
    simpa [length_strAppend] using h
  have hslash : ("/" : String).data.length = 1 := rfl
  have hunder : ("_" : String).data.length = 1 := rfl
  intro a b h
  match a, b with
  | 0, 0 => rfl
  | 0, k + 1 =>
    exfalso
    have hlen := congrArg (fun s => s.data.length) h
    simp only [targetCandidate, length_strAppend, List.length_cons, List.length_nil] at hlen
    omega
  | k + 1, 0 =>
    exfalso
    have hlen := congrArg (fun s => s.data.length) h
    simp only [targetCandidate, length_strAppend, List.length_cons, List.length_nil] at hlen
    omega
  | k + 1, j + 1 =>
    simp only [targetCandidate] at h
    have hd := congrArg String.data h
    simp only [String.data_append] at hd
    have h1 := List.append_cancel_right hd
    have h2 := List.append_cancel_left h1
    have h3 : k + 1 = j + 1 := natToDecList_inj h2
    omega

/-- The rename-probe candidates of handleDuplicates are pairwise distinct. -/
theorem renameCandidate_injective (dir base ext : String) :
    Function.Injective (fun k => dir ++ "/" ++ base ++ "_" ++ natToDec (k + 1) ++ ext) := by
  intro a b h
  simp only at h
  have hd := congrArg String.data h
  simp only [String.data_append] at hd
  have h1 := List.append_cancel_right hd
  have h2 := List.append_cancel_left h1
  have h3 : a + 1 = b + 1 := natToDecList_inj h2
  omega

/-! ## Characterization of copyFileToOrganizedLocation -/

theorem ensureDir_fsFiles (d : String) (st : St) : (ensureDir d st).fsFiles = st.fsFiles := by
  unfold ensureDir
  split <;> rfl

theorem ensureDir_stats (d : String) (st : St) : (ensureDir d st).stats = st.stats := by
  unfold ensureDir
  split <;> rfl

theorem ensureDir_mem (d : String) (st : St) : d ∈ (ensureDir d st).fsDirs := by
  by_cases h : st.fsDirs.contains d = true
  · unfold ensureDir
    rw [if_pos h]
    simpa using h
  · unfold ensureDir
    rw [if_neg h]
    exact List.mem_cons_self _ _

theorem copyFile_skip (o : Options) (name : String) (bytes : Option (List Nat))
    (basePath : String) (st : St)
    (h : isAllowedFileType (resolvedExtension name bytes) = false) :
    copyFileToOrganizedLocation o name bytes basePath st =
      (none, { st with stats := { st.stats with skippedFiles := st.stats.skippedFiles + 1 } }) := by
  simp [copyFileToOrganizedLocation, h]

theorem copyFile_some (o : Options) (name : String) (bytes : Option (List Nat))
    (basePath : String) (st : St)
    (h : isAllowedFileType (resolvedExtension name bytes) = true) :
    ∃ p,
      copyFileToOrganizedLocation o name bytes basePath st =
        (some p,
         { fsFiles := if o.dryRun then st.fsFiles else p :: st.fsFiles,
           fsDirs := if o.dryRun then st.fsDirs
             else (ensureDir (targetDirFor o basePath name bytes) st).fsDirs,
           stats := { st.stats with filesProcessed := st.stats.filesProcessed + 1 } })
      ∧ pathExists st p = false
      ∧ inFolder o basePath (resolvedExtension name bytes) p := by
  have hO : ∀ p, pathExists st p = true → p ∈ st.fsFiles ++ st.fsDirs := by
    intro p hp
    rw [pathExists, Bool.or_eq_true] at hp
    rcases hp with h1 | h1
    · exact List.mem_append_left _ (by simpa using h1)
    · exact List.mem_append_right _ (by simpa using h1)
  obtain ⟨j, hj, hfree⟩ := exists_free_cand (st.fsFiles ++ st.fsDirs) (pathExists st) hO
    (targetCandidate (targetDirFor o basePath name bytes) (destFileName name bytes))
    (targetCandidate_injective _ _)
  rw [List.length_append] at hj
  obtain ⟨p, hp⟩ := findFreePath_isSome (pathExists st)
    (targetCandidate (targetDirFor o basePath name bytes) (destFileName name bytes))
    (st.fsFiles.length + st.fsDirs.length + 1) 0 ⟨j, hj, by simpa using hfree⟩
  refine ⟨p, ?_, findFreePath_not_occupied _ _ _ _ _ hp, ?_⟩
  · simp only [copyFileToOrganizedLocation, h, Bool.not_true, Bool.false_eq_true, if_false,
      targetDirFor] at *
    rw [hp]
    cases hdry : o.dryRun with
    | true => simp [hdry]
    | false =>
      simp only [hdry, Bool.false_eq_true, if_false]
      rw [ensureDir_fsFiles, ensureDir_stats]
  · obtain ⟨k, hk⟩ := findFreePath_mem _ _ _ _ _ hp
    cases k with
    | zero => exact ⟨destFileName name bytes, by simpa [targetCandidate, targetDirFor] using hk⟩
    | succ k =>
      refine ⟨(splitExt (destFileName name bytes)).1 ++ "_" ++ natToDec (k + 1)
        ++ (splitExt (destFileName name bytes)).2, ?_⟩
      rw [hk]
      simp [targetCandidate, targetDirFor, String.append_assoc]

theorem copyFile_stats (o : Options) (name : String) (bytes : Option (List Nat))
    (basePath : String) (st : St) :
    (copyFileToOrganizedLocation o name bytes basePath st).2.stats =
      if isAllowedFileType (resolvedExtension name bytes)
      then { st.stats with filesProcessed := st.stats.filesProcessed + 1 }
      else { st.stats with skippedFiles := st.stats.skippedFiles + 1 } := by
  cases hA : isAllowedFileType (resolvedExtension name bytes) with
  | false => rw [copyFile_skip o name bytes basePath st hA]; simp
  | true =>
    obtain ⟨p, heq, _, _⟩ := copyFile_some o name bytes basePath st hA
    rw [heq]
    simp

theorem copyFile_dry_fs (o : Options) (name : String) (bytes : Option (List Nat))
    (basePath : String) (st : St) (hdry : o.dryRun = true) :
    (copyFileToOrganizedLocation o name bytes basePath st).2.fsFiles = st.fsFiles ∧
    (copyFileToOrganizedLocation o name bytes basePath st).2.fsDirs = st.fsDirs := by
  cases hA : isAllowedFileType (resolvedExtension name bytes) with
  | false => rw [copyFile_skip o name bytes basePath st hA]; exact ⟨rfl, rfl⟩
  | true =>
    obtain ⟨p, heq, _, _⟩ := copyFile_some o name bytes basePath st hA
    rw [heq]
    simp [hdry]

theorem copyFile_outSpec (o : Options) (name : String) (bytes : Option (List Nat))
    (basePath : String) (st : St) (hdry : o.dryRun = false) :
    OutSpec o basePath st (copyFileToOrganizedLocation o name bytes basePath st).1.toList
      (copyFileToOrganizedLocation o name bytes basePath st).2 := by
  cases hA : isAllowedFileType (resolvedExtension name bytes) with
  | false =>
    rw [copyFile_skip o name bytes basePath st hA]
    exact ⟨by simp, by simp, fun q hq _ => hq, by simp, by simp⟩
  | true =>
    obtain ⟨p, heq, hfresh, hinf⟩ := copyFile_some o name bytes basePath st hA
    rw [heq]
    simp only [hdry, Bool.false_eq_true, if_false, Option.toList_some]
    have hcontains : st.fsFiles.contains p = false := by
      have hx := hfresh
      rw [pathExists, Bool.or_eq_false_iff] at hx
      exact hx.1
    have hnotmem : p ∉ st.fsFiles := by simpa using hcontains
    have hout : outArea o basePath p = true := outArea_place o basePath _ p hinf
    refine ⟨?_, ?_, ?_, by simp, ?_⟩
    · intro q hq
      rw [List.mem_singleton] at hq
      rw [hq]
      exact hnotmem
    · intro q hq
      rw [List.mem_singleton] at hq
      rw [hq]
      exact List.mem_cons_self _ _
    · intro q hq _
      exact List.mem_cons_of_mem _ hq
    · intro q hq
      rw [List.mem_singleton] at hq
      rw [hq]
      exact hout

/-! ## The placement invariant of the walk -/

theorem outSpec_nil (o : Options) (basePath : String) (st : St) : OutSpec o basePath st [] st :=
  ⟨by simp, by simp, fun _ hq _ => hq, by simp, by simp⟩

theorem outSpec_of_pres {o : Options} {basePath : String} {st st2 : St}
    (h : ∀ q ∈ st.fsFiles, outArea o basePath q = true → q ∈ st2.fsFiles) :
    OutSpec o basePath st [] st2 :=
  ⟨by simp, by simp, h, by simp, by simp⟩

theorem outSpec_of_supset {o : Options} {basePath : String} {st st2 : St}
    (h : ∀ q ∈ st.fsFiles, q ∈ st2.fsFiles) : OutSpec o basePath st [] st2 :=
  outSpec_of_pres (fun q hq _ => h q hq)

theorem outSpec_comp {o : Options} {basePath : String} {st : St} {ps1 : List String} {st1 : St}
    {ps2 : List String} {st2 : St}
    (h1 : OutSpec o basePath st ps1 st1) (h2 : OutSpec o basePath st1 ps2 st2) :
    OutSpec o basePath st (ps1 ++ ps2) st2 := by
  obtain ⟨f1, m1, pres1, n1, a1⟩ := h1
  obtain ⟨f2, m2, pres2, n2, a2⟩ := h2
  refine ⟨?_, ?_, fun q hq hout => pres2 q (pres1 q hq hout) hout, ?_, ?_⟩
  · intro p hp
    rcases List.mem_append.mp hp with hp | hp
    · exact f1 p hp
    · intro hmem
      exact f2 p hp (pres1 p hmem (a2 p hp))
  · intro p hp
    rcases List.mem_append.mp hp with hp | hp
    · exact pres2 p (m1 p hp) (a1 p hp)
    · exact m2 p hp
  · refine List.Nodup.append n1 n2 ?_
    intro p hp1 hp2
    exact f2 p hp2 (m1 p hp1)
  · intro p hp
    rcases List.mem_append.mp hp with hp | hp
    · exact a1 p hp
    · exact a2 p hp

theorem outSpec_comp0 {o : Options} {basePath : String} {st st1 : St} {ps : List String}
    {st2 : St} (h1 : OutSpec o basePath st [] st1) (h2 : OutSpec o basePath st1 ps st2) :
    OutSpec o basePath st ps st2 := by
  have h := outSpec_comp h1 h2
  simpa using h

theorem outSpec_right0 {o : Options} {basePath : String} {st st1 : St} {ps : List String}
    {st2 : St} (h1 : OutSpec o basePath st ps st1) (h2 : OutSpec o basePath st1 [] st2) :
    OutSpec o basePath st ps st2 := by
  have h := outSpec_comp h1 h2
  simpa using h

/-- Extraction only ever adds files (the materialized scratch content): every
existing file survives it. -/
theorem extractArchive_files_supset (o : Options) (name : String) (good : Bool)
    (content : List Entry) (basePath : String) (st : St) :
    ∀ q ∈ st.fsFiles, q ∈ (extractArchive o name good content basePath st).2.fsFiles := by
  intro q hq
  unfold extractArchive
  by_cases hd : o.dryRun = true
  · rw [if_pos hd]
    exact hq
  · rw [if_neg hd]
    split_ifs <;> simp [ensureDir_fsFiles, hq]

/-- A non-null extraction result is always the archive's scratch path. -/
theorem extractArchive_some_path (o : Options) (name : String) (good : Bool)
    (content : List Entry) (basePath : String) (st : St) (p : String)
    (h : (extractArchive o name good content basePath st).1.1 = some p) :
    p = basePath ++ "/" ++ "temp_extract" ++ "/" ++ (splitExt name).1 := by
  unfold extractArchive at h
  by_cases hd : o.dryRun = true
  · rw [if_pos hd] at h
    simp only [Option.some.injEq] at h
    exact h.symm
  · rw [if_neg hd] at h
    split_ifs at h <;> simp at h <;> exact h.symm

theorem removeTree_stats (q : String) (st : St) : (removeTree q st).stats = st.stats := rfl

/-- The removal of a scratch subtree preserves every file of the output area,
as long as the output directory name is slash-free and differs from
"temp_extract". -/
theorem removeTree_mem_out (o : Options) (basePath stem : String) (st : St)
    (hnos : '/' ∉ o.outputDir.data) (hne : o.outputDir ≠ "temp_extract") :
    ∀ p ∈ st.fsFiles, outArea o basePath p = true →
      p ∈ (removeTree (basePath ++ "/" ++ "temp_extract" ++ "/" ++ stem) st).fsFiles := by
  intro p hp hout
  have hfe : (removeTree (basePath ++ "/" ++ "temp_extract" ++ "/" ++ stem) st).fsFiles =
      st.fsFiles.filter
        (fun x => !pathUnderOrEq (basePath ++ "/" ++ "temp_extract" ++ "/" ++ stem) x) := rfl
  rw [hfe, List.mem_filter]
  refine ⟨hp, ?_⟩
  have hf := outArea_not_under_scratch o basePath stem p hnos hne hout
  simp only [hf, Bool.not_false]

/-- Every walk of a non-dry run whose output directory name contains no path
separator and differs from the scratch name "temp_extract" satisfies the
output-area placement invariant: placed paths are fresh, recorded among the
final files, pairwise distinct and inside the output area — and the scratch
cleanups along the way never delete them, because each removed scratch
subtree is disjoint from the output area. -/
theorem scan_outSpec (o : Options) (basePath : String) (hdry : o.dryRun = false)
    (hnos : '/' ∉ o.outputDir.data) (hne : o.outputDir ≠ "temp_extract")
    (l : List Entry) (st : St) :
    OutSpec o basePath st (scanDirectory o basePath l st).1 (scanDirectory o basePath l st).2 := by
  induction l, st using scanDirectory.induct o basePath with
  | case1 st =>
    simp only [scanDirectory]
    exact outSpec_nil o basePath st
  | case2 children rest st ih =>
    simp only [scanDirectory, if_pos rfl]
    exact ih
  | case3 name children rest st hne2 pr1 ih1 ih2 =>
    simp only [scanDirectory]
    rw [if_neg hne2]
    exact outSpec_comp ih1 ih2
  | case4 name bytes good content rest st harch r prA prC ihc1 ihc2 ihr =>
    unfold_let prC prA r at ihr
    simp only [dite_eq_ite] at ihr
    simp only [scanDirectory]
    rw [if_pos harch]
    have hsup := extractArchive_files_supset o name good content basePath st
    by_cases hS : (extractArchive o name good content basePath st).1.1.isSome = true
    · rw [if_pos hS] at ihr ⊢
      obtain ⟨pv, hpv⟩ := Option.isSome_iff_exists.mp hS
      have hshape := extractArchive_some_path o name good content basePath st pv hpv
      rw [hpv] at ihr ⊢
      simp only [Option.getD_some] at ihr ⊢
      by_cases hP : (extractArchive o name good content basePath st).1.2 = true
      · rw [if_pos hP] at ihr ⊢
        by_cases hclean : (!o.dryRun && o.cleanupExtracted) = true
        · rw [if_pos hclean] at ihr ⊢
          refine outSpec_comp (outSpec_comp ?_
            (copyFile_outSpec o name bytes basePath _ hdry)) ihr
          refine outSpec_right0 (outSpec_comp0 (outSpec_of_supset hsup) ihc2) ?_
          rw [hshape]
          exact outSpec_of_pres (removeTree_mem_out o basePath _ _ hnos hne)
        · rw [if_neg hclean] at ihr ⊢
          exact outSpec_comp (outSpec_comp (outSpec_comp0 (outSpec_of_supset hsup) ihc2)
            (copyFile_outSpec o name bytes basePath _ hdry)) ihr
      · rw [if_neg hP] at ihr ⊢
        by_cases hclean : (!o.dryRun && o.cleanupExtracted) = true
        · rw [if_pos hclean] at ihr ⊢
          refine outSpec_comp (outSpec_comp0 ?_
            (copyFile_outSpec o name bytes basePath _ hdry)) ihr
          have hmid : OutSpec o basePath st []
              ({ (extractArchive o name good content basePath st).2 with stats :=
                 { (extractArchive o name good content basePath st).2.stats with
                   errors := (extractArchive o name good content basePath st).2.stats.errors
                     + 1 } }) :=
            outSpec_of_supset hsup
          rw [hshape]
          exact outSpec_right0 hmid
            (outSpec_of_pres (removeTree_mem_out o basePath _ _ hnos hne))
        · rw [if_neg hclean] at ihr ⊢
          refine outSpec_comp (outSpec_comp0 ?_
            (copyFile_outSpec o name bytes basePath _ hdry)) ihr
          exact outSpec_of_supset (fun q hq => hsup q hq)
    · rw [if_neg hS] at ihr ⊢
      exact outSpec_comp (outSpec_comp0 (outSpec_of_supset hsup)
        (copyFile_outSpec o name bytes basePath _ hdry)) ihr
  | case5 name bytes good content rest st harch prC ihr =>
    simp only [scanDirectory]
    rw [if_neg harch]
    exact outSpec_comp (copyFile_outSpec o name bytes basePath st hdry) ihr

/-! ## The walk never descends into output-named directories -/

theorem pruneOutput_cons_dir_skip (o : Options) (children rest : List Entry) :
    pruneOutput o (Entry.dir o.outputDir children :: rest) = pruneOutput o rest := by
  simp only [pruneOutput]
  rw [if_true]

/-- The guard of lines 233-241: a directory whose base name equals the output
directory name is skipped before descending, wherever it occurs. -/
theorem scanDirectory_cons_dir_skip (o : Options) (basePath : String)
    (children rest : List Entry) (st : St) :
    scanDirectory o basePath (Entry.dir o.outputDir children :: rest) st =
      scanDirectory o basePath rest st := by
  simp only [scanDirectory]
  rw [if_true]

/-- Walking a tree is the same as walking the tree with every directory named
like the output directory removed: the guard of scanDirectory skips them
before descending. -/
theorem scan_prune (o : Options) (basePath : String) (l : List Entry) (st : St) :
    scanDirectory o basePath (pruneOutput o l) st = scanDirectory o basePath l st := by
  induction l, st using scanDirectory.induct o basePath with
  | case1 st => simp only [pruneOutput]
  | case2 children rest st ih =>
    rw [pruneOutput_cons_dir_skip, ih, scanDirectory_cons_dir_skip]
  | case3 name children rest st hne pr1 ih1 ih2 =>
    unfold_let pr1 at ih2
    simp only [pruneOutput]
    rw [if_neg hne]
    simp only [scanDirectory]
    rw [if_neg hne, if_neg hne, ih1, ih2]
  | case4 name bytes good content rest st harch r prA prC ihc1 ihc2 ihr =>
    unfold_let prC prA r at ihr
    simp only [dite_eq_ite] at ihr
    simp only [pruneOutput]
    simp only [scanDirectory]
    rw [if_pos harch, if_pos harch, ihr]
  | case5 name bytes good content rest st harch prC ihr =>
    unfold_let prC at ihr
    simp only [pruneOutput]
    simp only [scanDirectory]
    rw [if_neg harch, if_neg harch, ihr]

/-! ## Characterization of extractArchive -/

theorem extractArchive_dry (o : Options) (name : String) (good : Bool) (content : List Entry)
    (basePath : String) (st : St) (hdry : o.dryRun = true) :
    extractArchive o name good content basePath st =
      ((some (basePath ++ "/" ++ "temp_extract" ++ "/" ++ (splitExt name).1), false),
       { st with stats :=
          { st.stats with archivesExtracted := st.stats.archivesExtracted + 1 } }) := by
  unfold extractArchive
  rw [if_pos hdry]

theorem extractArchive_zip_good (o : Options) (name : String) (content : List Entry)
    (basePath : String) (st : St)
    (hdry : o.dryRun = false) (hz : getFileExtension name = "zip") :
    extractArchive o name true content basePath st =
      ((some (basePath ++ "/" ++ "temp_extract" ++ "/" ++ (splitExt name).1), true),
       { fsFiles := materializeFiles
           (basePath ++ "/" ++ "temp_extract" ++ "/" ++ (splitExt name).1) content
           ++ st.fsFiles,
         fsDirs := materializeDirs
           (basePath ++ "/" ++ "temp_extract" ++ "/" ++ (splitExt name).1) content
           ++ (ensureDir (basePath ++ "/" ++ "temp_extract" ++ "/" ++ (splitExt name).1)
             st).fsDirs,
         stats := { st.stats with archivesExtracted := st.stats.archivesExtracted + 1 } }) := by
  unfold extractArchive
  rw [if_neg (by rw [hdry]; exact Bool.false_ne_true), if_pos hz, if_pos rfl]
  have h1 := ensureDir_fsFiles (basePath ++ "/" ++ "temp_extract" ++ "/" ++ (splitExt name).1) st
  have h2 := ensureDir_stats (basePath ++ "/" ++ "temp_extract" ++ "/" ++ (splitExt name).1) st
  rw [Prod.mk.injEq]
  refine ⟨rfl, ?_⟩
  rw [St.mk.injEq]
  exact ⟨by rw [h1], rfl, by rw [h2]⟩

theorem extractArchive_zip_bad (o : Options) (name : String) (content : List Entry)
    (basePath : String) (st : St)
    (hdry : o.dryRun = false) (hz : getFileExtension name = "zip") :
    extractArchive o name false content basePath st =
      ((none, false),
       { fsFiles := st.fsFiles,
         fsDirs := (ensureDir (basePath ++ "/" ++ "temp_extract" ++ "/" ++ (splitExt name).1)
           st).fsDirs,
         stats := { st.stats with errors := st.stats.errors + 1 } }) := by
  unfold extractArchive
  rw [if_neg (by rw [hdry]; exact Bool.false_ne_true), if_pos hz,
    if_neg Bool.false_ne_true]
  have h1 := ensureDir_fsFiles (basePath ++ "/" ++ "temp_extract" ++ "/" ++ (splitExt name).1) st
  have h2 := ensureDir_stats (basePath ++ "/" ++ "temp_extract" ++ "/" ++ (splitExt name).1) st
  rw [Prod.mk.injEq]
  refine ⟨rfl, ?_⟩
  rw [St.mk.injEq]
  exact ⟨h1, rfl, by rw [h2]⟩

/-! ## Dry-run preservation and stats parity -/

/-- In preview mode no byte is copied and no directory is created: the
filesystem part of the state is untouched by the whole walk. -/
theorem scan_dry_fs (o : Options) (basePath : String) (hdry : o.dryRun = true)
    (l : List Entry) (st : St) :
    (scanDirectory o basePath l st).2.fsFiles = st.fsFiles ∧
    (scanDirectory o basePath l st).2.fsDirs = st.fsDirs := by
  have hclean : (!o.dryRun && o.cleanupExtracted) = false := by
    rw [hdry]
    rfl
  induction l, st using scanDirectory.induct o basePath with
  | case1 st =>
    simp [scanDirectory]
  | case2 children rest st ih =>
    rw [scanDirectory_cons_dir_skip]
    exact ih
  | case3 name children rest st hne pr1 ih1 ih2 =>
    unfold_let pr1 at ih2
    simp only [scanDirectory]
    rw [if_neg hne]
    exact ⟨by rw [ih2.1, ih1.1], by rw [ih2.2, ih1.2]⟩
  | case4 name bytes good content rest st harch r prA prC ihc1 ihc2 ihr =>
    unfold_let prC prA r at ihr
    simp only [dite_eq_ite] at ihr
    simp only [scanDirectory]
    rw [if_pos harch]
    rw [extractArchive_dry o name good content basePath st hdry] at ihr ⊢
    simp only [Option.isSome_some, if_true, Bool.false_eq_true, if_false, hclean] at ihr ⊢
    exact ⟨by rw [ihr.1, (copyFile_dry_fs o name bytes basePath _ hdry).1],
           by rw [ihr.2, (copyFile_dry_fs o name bytes basePath _ hdry).2]⟩
  | case5 name bytes good content rest st harch prC ihr =>
    unfold_let prC at ihr
    simp only [scanDirectory]
    rw [if_neg harch]
    have hcopy := copyFile_dry_fs o name bytes basePath st hdry
    exact ⟨by rw [ihr.1, hcopy.1], by rw [ihr.2, hcopy.2]⟩

/-- For trees with no archive files, the stats a walk accumulates do not depend
on the dry-run flag or the filesystem state: per file only the skip/process
decision matters, and it is a function of name and bytes alone. -/
theorem scan_stats_parity (o1 o2 : Options) (basePath : String)
    (hout : o1.outputDir = o2.outputDir) (hex : o1.extractArchives = o2.extractArchives) :
    ∀ l st1 st2, hasNoArchiveEntry l = true → st1.stats = st2.stats →
      (scanDirectory o1 basePath l st1).2.stats = (scanDirectory o2 basePath l st2).2.stats := by
  intro l st1
  induction l, st1 using scanDirectory.induct o1 basePath with
  | case1 st1 =>
    intro st2 hna hstats
    simp only [scanDirectory]
    exact hstats
  | case2 children rest st1 ih =>
    intro st2 hna hstats
    simp only [hasNoArchiveEntry, Bool.and_eq_true] at hna
    rw [scanDirectory_cons_dir_skip, hout, scanDirectory_cons_dir_skip]
    exact ih st2 hna.2 hstats
  | case3 name children rest st1 hne pr1 ih1 ih2 =>
    intro st2 hna hstats
    unfold_let pr1 at ih2
    simp only [hasNoArchiveEntry, Bool.and_eq_true] at hna
    simp only [scanDirectory]
    rw [if_neg hne, if_neg (by rw [← hout]; exact hne)]
    exact ih2 (scanDirectory o2 basePath children st2).2 hna.2 (ih1 st2 hna.1 hstats)
  | case4 name bytes good content rest st1 harch r prA prC ihc1 ihc2 ihr =>
    intro st2 hna hstats
    exfalso
    simp only [hasNoArchiveEntry, Bool.and_eq_true] at hna
    rw [Bool.and_eq_true] at harch
    rw [harch.2] at hna
    simp at hna
  | case5 name bytes good content rest st1 harch prC ihr =>
    intro st2 hna hstats
    unfold_let prC at ihr
    simp only [hasNoArchiveEntry, Bool.and_eq_true] at hna
    simp only [scanDirectory]
    rw [if_neg harch, if_neg (by rw [← hex]; exact harch)]
    apply ihr
    · exact hna.2
    · rw [copyFile_stats, copyFile_stats, hstats]

/-! ## Archive round-trip machinery -/

/-- Scanning a list of plain classifiable files places each one inside its own
category folder, in order, and increments filesProcessed once per file,
touching no other counter. -/
theorem scan_plain (o : Options) (basePath : String) :
    ∀ content st, (∀ e ∈ content, plainAllowedFile e = true) →
      List.Forall₂ (fun e p => inFolder o basePath (entryResolved e) p) content
        (scanDirectory o basePath content st).1 ∧
      (scanDirectory o basePath content st).2.stats =
        { st.stats with
          filesProcessed := st.stats.filesProcessed + content.length } := by
  intro content
  induction content with
  | nil =>
    intro st h
    simp only [scanDirectory]
    exact ⟨List.Forall₂.nil, by simp⟩
  | cons e rest ih =>
    intro st h
    cases e with
    | dir name children =>
      have hd := h _ (List.mem_cons_self _ _)
      simp [plainAllowedFile] at hd
    | file name bytes good content1 =>
      have hpa := h _ (List.mem_cons_self _ _)
      simp only [plainAllowedFile, Bool.and_eq_true, Bool.not_eq_true'] at hpa
      obtain ⟨hnarch, hallow⟩ := hpa
      have htail : ∀ e ∈ rest, plainAllowedFile e = true :=
        fun e he => h e (List.mem_cons_of_mem _ he)
      simp only [scanDirectory]
      rw [if_neg (by simp [hnarch])]
      obtain ⟨p, heq, hfresh, hinf⟩ := copyFile_some o name bytes basePath st hallow
      rw [heq]
      refine ⟨?_, ?_⟩
      · exact List.Forall₂.cons hinf (ih _ htail).1
      · rw [(ih _ htail).2]
        simp only [List.length_cons]
        rw [Stats.mk.injEq]
        refine ⟨by omega, rfl, rfl, rfl⟩

/-! ## Further infrastructure lemmas -/

theorem ensureDir_mem_of_mem {x : String} {st : St} (d : String) (h : x ∈ st.fsDirs) :
    x ∈ (ensureDir d st).fsDirs := by
  unfold ensureDir
  by_cases hc : st.fsDirs.contains d = true
  · rw [if_pos hc]
    exact h
  · rw [if_neg hc]
    exact List.mem_cons_of_mem _ h

theorem handleDuplicates_rename_free (fsFiles : List String) (targetPath p : String)
    (h : handleDuplicates DupMode.rename fsFiles targetPath = some p) :
    fsFiles.contains p = false := by
  unfold handleDuplicates at h
  by_cases hc : fsFiles.contains targetPath = true
  · rw [if_neg (by intro hx; rw [hc] at hx; simp at hx)] at h
    exact findFreePath_not_occupied _ _ _ _ _ h
  · have hc2 : fsFiles.contains targetPath = false := Bool.eq_false_iff.mpr hc
    rw [if_pos (by rw [hc2]; rfl)] at h
    rw [Option.some.injEq] at h
    rw [← h]
    exact hc2

theorem resolved_allowed_of_zip (name : String) (bytes : Option (List Nat))
    (hz : getFileExtension name = "zip") :
    isAllowedFileType (resolvedExtension name bytes) = true := by
  by_cases hD : isAllowedFileType (detectFileType name bytes) = true
  · simp only [resolvedExtension]
    rw [if_pos hD]
    exact hD
  · simp only [resolvedExtension]
    rw [if_neg hD, hz]
    decide

/-- Inserting a directory named like the output directory anywhere in a list of
entries does not change the walk at all. -/
theorem scan_insert_output_dir (o : Options) (basePath : String) (children : List Entry) :
    ∀ pre post st,
      scanDirectory o basePath (pre ++ Entry.dir o.outputDir children :: post) st =
        scanDirectory o basePath (pre ++ post) st := by
  intro pre
  induction pre with
  | nil =>
    intro post st
    simp only [List.nil_append]
    exact scanDirectory_cons_dir_skip o basePath children post st
  | cons e pre ih =>
    intro post st
    cases e with
    | dir name children2 =>
      by_cases hn : name = o.outputDir
      · subst hn
        rw [List.cons_append, List.cons_append, scanDirectory_cons_dir_skip,
          scanDirectory_cons_dir_skip, ih]
      · rw [List.cons_append, List.cons_append]
        simp only [scanDirectory]
        rw [if_neg hn, if_neg hn, ih]
    | file name bytes good content1 =>
      rw [List.cons_append, List.cons_append]
      simp only [scanDirectory]
      by_cases ha : (o.extractArchives && isArchiveFile (getFileExtension name)) = true
      · rw [if_pos ha, if_pos ha, ih]
      · rw [if_neg ha, if_neg ha, ih]

theorem find?_eq_of_first {α : Type} (p : α → Bool) :
    ∀ (l : List α) (i : Nat) (hi : i < l.length), p (l.get ⟨i, hi⟩) = true →
      (∀ j (hj : j < i), p (l.get ⟨j, Nat.lt_trans hj hi⟩) = false) →
      l.find? p = some (l.get ⟨i, hi⟩) := by
  intro l
  induction l with
  | nil => intro i hi; exact absurd hi (by simp)
  | cons a t ih =>
    intro i hi hp hmin
    cases i with
    | zero => exact List.find?_cons_of_pos _ hp
    | succ i =>
      have h0 : p a = false := hmin 0 (Nat.succ_pos i)
      rw [List.find?_cons_of_neg _ (by rw [h0]; exact Bool.false_ne_true)]
      exact ih i (Nat.lt_of_succ_lt_succ hi) hp
        (fun j hj => hmin (j + 1) (Nat.succ_lt_succ hj))

/-- Full behaviour of the walk on one good zip archive whose content is a list
of plain classifiable files: every contained file lands in its category folder,
the archive itself is placed once, archivesExtracted rises by one and
filesProcessed by the content size plus one. -/
theorem archive_scan_spec (o : Options) (basePath : String) (st : St)
    (name : String) (bytes : Option (List Nat)) (content : List Entry)
    (hdry : o.dryRun = false) (hex : o.extractArchives = true)
    (hz : getFileExtension name = "zip")
    (hc : ∀ e ∈ content, plainAllowedFile e = true) :
    (scanDirectory o basePath [Entry.file name bytes true content] st).2.stats =
      { st.stats with
        filesProcessed := st.stats.filesProcessed + content.length + 1,
        archivesExtracted := st.stats.archivesExtracted + 1 } ∧
    ∃ ps pa,
      (scanDirectory o basePath [Entry.file name bytes true content] st).1 = ps ++ [pa] ∧
      List.Forall₂ (fun e p => inFolder o basePath (entryResolved e) p) content ps ∧
      inFolder o basePath (resolvedExtension name bytes) pa := by
  have harch : (o.extractArchives && isArchiveFile (getFileExtension name)) = true := by
    rw [hex, hz]
    decide
  simp only [scanDirectory]
  rw [if_pos harch]
  rw [extractArchive_zip_good o name content basePath st hdry hz]
  simp only [Option.isSome_some, if_true, Option.getD_some]
  set dirE := basePath ++ "/" ++ "temp_extract" ++ "/" ++ (splitExt name).1 with hdirE
  set stE : St :=
    { fsFiles := materializeFiles dirE content ++ st.fsFiles,
      fsDirs := materializeDirs dirE content ++ (ensureDir dirE st).fsDirs,
      stats := { st.stats with archivesExtracted := st.stats.archivesExtracted + 1 } } with hstE
  set stScan := scanDirectory o basePath content stE with hscan
  have hplain := scan_plain o basePath content stE hc
  rw [← hscan] at hplain
  have hallow := resolved_allowed_of_zip name bytes hz
  by_cases hclean : (!o.dryRun && o.cleanupExtracted) = true
  · rw [if_pos hclean]
    obtain ⟨pa, heq, hfresh, hinf⟩ := copyFile_some o name bytes basePath
      (removeTree dirE stScan.2) hallow
    rw [heq]
    simp only [scanDirectory, Option.toList_some, List.append_nil]
    refine ⟨?_, stScan.1, pa, rfl, hplain.1, hinf⟩
    show { stScan.2.stats with
        filesProcessed := stScan.2.stats.filesProcessed + 1 } = _
    rw [hplain.2, hstE]
  · rw [if_neg hclean]
    obtain ⟨pa, heq, hfresh, hinf⟩ := copyFile_some o name bytes basePath stScan.2 hallow
    rw [heq]
    simp only [scanDirectory, Option.toList_some, List.append_nil]
    refine ⟨?_, stScan.1, pa, rfl, hplain.1, hinf⟩
    show { stScan.2.stats with
        filesProcessed := stScan.2.stats.filesProcessed + 1 } = _
    rw [hplain.2, hstE]

/-- Full behaviour of the walk on one zip archive that fails to extract: the
run continues, the archive itself is still placed in its category folder,
one error is counted, archivesExtracted is untouched — and the scratch
directory created before the failure is still present at the end. -/
theorem failed_archive_spec (o : Options) (basePath : String) (st : St)
    (name : String) (bytes : Option (List Nat)) (content : List Entry)
    (hdry : o.dryRun = false) (hex : o.extractArchives = true)
    (hz : getFileExtension name = "zip") :
    (∃ pa, (scanDirectory o basePath [Entry.file name bytes false content] st).1 = [pa] ∧
      inFolder o basePath (resolvedExtension name bytes) pa) ∧
    (scanDirectory o basePath [Entry.file name bytes false content] st).2.stats =
      { st.stats with
        filesProcessed := st.stats.filesProcessed + 1,
        errors := st.stats.errors + 1 } ∧
    (basePath ++ "/" ++ "temp_extract" ++ "/" ++ (splitExt name).1) ∈
      (scanDirectory o basePath [Entry.file name bytes false content] st).2.fsDirs := by
  have harch : (o.extractArchives && isArchiveFile (getFileExtension name)) = true := by
    rw [hex, hz]
    decide
  simp only [scanDirectory]
  rw [if_pos harch]
  rw [extractArchive_zip_bad o name content basePath st hdry hz]
  simp only [Option.isSome_none, Bool.false_eq_true, if_false]
  set dirE := basePath ++ "/" ++ "temp_extract" ++ "/" ++ (splitExt name).1 with hdirE
  set stB : St :=
    { fsFiles := st.fsFiles, fsDirs := (ensureDir dirE st).fsDirs,
      stats := { st.stats with errors := st.stats.errors + 1 } } with hstB
  obtain ⟨pa, heq, hfresh, hinf⟩ := copyFile_some o name bytes basePath stB
    (resolved_allowed_of_zip name bytes hz)
  rw [heq]
  simp only [scanDirectory, Option.toList_some, List.nil_append, List.append_nil]
  refine ⟨⟨pa, rfl, hinf⟩, trivial, ?_⟩
  rw [hdry]
  simp only [Bool.false_eq_true, if_false]
  exact ensureDir_mem_of_mem _ (ensureDir_mem dirE st)

/-- Stats of a dry run over one zip archive: extractArchive still counts the
archive as extracted and returns the never-created scratch path, reading that
path fails and counts one error, the contained files are never seen, and only
the archive file itself counts as processed. -/
theorem dry_archive_stats (o : Options) (basePath : String) (st : St)
    (name : String) (bytes : Option (List Nat)) (good : Bool) (content : List Entry)
    (hdry : o.dryRun = true) (hex : o.extractArchives = true)
    (hz : getFileExtension name = "zip") :
    (scanDirectory o basePath [Entry.file name bytes good content] st).2.stats =
      { st.stats with
        filesProcessed := st.stats.filesProcessed + 1,
        archivesExtracted := st.stats.archivesExtracted + 1,
        errors := st.stats.errors + 1 } := by
  have harch : (o.extractArchives && isArchiveFile (getFileExtension name)) = true := by
    rw [hex, hz]
    decide
  have hcleanF : (!o.dryRun && o.cleanupExtracted) = false := by
    rw [hdry]
    rfl
  simp only [scanDirectory]
  rw [if_pos harch, extractArchive_dry o name good content basePath st hdry]
  simp only [Option.isSome_some, if_true, hcleanF, Bool.false_eq_true, if_false,
    Option.getD_some]
  rw [copyFile_stats, resolved_allowed_of_zip name bytes hz]
  simp only [if_true]

/-! ## Claim theorems -/

/-- Under the smart organizer's 'overwrite' duplicate policy, two distinct
input files with the same base name are assigned exactly the same destination
path — the second copy overwrites the file the first one produced.  (A second,
independent violation of path distinctness, beside the scratch-aliasing one of
the allow-list organizer below.) -/
theorem overwrite_mode_reassigns_occupied_path :
    (smartPlace DupMode.overwrite
      ["dest/Images/a.jpg", "dest/Images/a.jpg"] []).1 =
      [some "dest/Images/a.jpg", some "dest/Images/a.jpg"] ∧
    ¬ (["dest/Images/a.jpg", "dest/Images/a.jpg"] : List String).Nodup := by
  constructor
  · rfl
  · decide

/-- C1 (counterexample): with the output directory configured as
"temp_extract" the allow-list organizer assigns the same destination path to
two distinct inputs.  Extracting jpg.zip materializes
base/temp_extract/jpg/x.jpg on disk, so its contained x.jpg is placed at
base/temp_extract/jpg/x_1.jpg; the scratch cleanup
fs.remove("base/temp_extract/jpg") then deletes that placed file together
with the scratch subtree, and the later source file x_1.jpg is assigned the
very same path — the run's placed paths are not pairwise distinct and the
first input's output has been destroyed. -/
theorem scratch_cleanup_reassigns_destination :
    (scanDirectory oAlias "base" aliasTree st0).1 =
      ["base/temp_extract/jpg/x_1.jpg", "base/temp_extract/zip/jpg.zip",
       "base/temp_extract/jpg/x_1.jpg"] ∧
    ¬ (scanDirectory oAlias "base" aliasTree st0).1.Nodup := by
  have heval : (scanDirectory oAlias "base" aliasTree st0).1 =
      ["base/temp_extract/jpg/x_1.jpg", "base/temp_extract/zip/jpg.zip",
       "base/temp_extract/jpg/x_1.jpg"] := by
    simp only [aliasTree, oAlias, st0, scanDirectory, extractArchive, materializeFiles,
      materializeDirs, removeTree, pathUnderOrEq, copyFileToOrganizedLocation, ensureDir,
      pathExists, findFreePath, targetCandidate, destFileName, resolvedExtension,
      detectFileType, getFileExtension, isAllowedFileType, isArchiveFile,
      getFolderNameForExtension, sanitizeFileName, splitExt, strLower, trimB, natToDec,
      natToDecList, natToDecCore, lastIdxOf, allowedFileTypes, signatures, sigMatches, bufAt,
      wsChar, startsWithL]
    decide
  refine ⟨heval, ?_⟩
  rw [heval]
  decide

/-- C1 (amended): in a non-dry run whose configured output directory name
contains no path separator and is not the scratch name "temp_extract", every
placed destination path is fresh and the placed paths are pairwise distinct
(the scratch cleanups cannot reach the output area), and the smart
organizer's default 'rename' duplicate policy never resolves to an occupied
path.  Outside those conditions the distinctness fails: the counterexample
runs with outputDir = "temp_extract", where a scratch cleanup deletes a
placed file and frees its path for reassignment; the smart organizer's
'overwrite' policy reuses an occupied path outright. -/
theorem destination_paths_unique_amended (o : Options) (basePath : String)
    (entries : List Entry) (st : St) (fs : List String) (t : String)
    (hdry : o.dryRun = false) (hnos : '/' ∉ o.outputDir.data)
    (hne : o.outputDir ≠ "temp_extract") :
    (scanDirectory o basePath entries st).1.Nodup ∧
    (scanDirectory o basePath entries st).1.all (fun p => !st.fsFiles.contains p) = true ∧
    (handleDuplicates DupMode.rename fs t).all (fun p => !fs.contains p) = true := by
  obtain ⟨hfresh, _, _, hnodup, _⟩ := scan_outSpec o basePath hdry hnos hne entries st
  refine ⟨hnodup, ?_, ?_⟩
  · rw [List.all_eq_true]
    intro p hp
    have := hfresh p hp
    simpa using this
  · cases hr : handleDuplicates DupMode.rename fs t with
    | none => rfl
    | some p =>
      have hfree := handleDuplicates_rename_free fs t p hr
      have hmem : p ∉ fs := by simpa using hfree
      simp [Option.all, hmem]

/-- C1 (witness): the default configuration (output directory
"organized_files") satisfies the separation hypotheses, and a run over two
same-named images places them at a.jpg and a_1.jpg, distinct and both
fresh. -/
theorem destination_paths_unique_amended_witness :
    (oStd.dryRun = false ∧ '/' ∉ oStd.outputDir.data ∧ oStd.outputDir ≠ "temp_extract") ∧
    (scanDirectory oStd "base" twoJpgs st0).1 =
      ["base/organized_files/jpg/a.jpg", "base/organized_files/jpg/a_1.jpg"] ∧
    (scanDirectory oStd "base" twoJpgs st0).1.Nodup ∧
    (scanDirectory oStd "base" twoJpgs st0).1.all (fun p => !st0.fsFiles.contains p) = true ∧
    (handleDuplicates DupMode.rename ["base/organized_files/jpg/a.jpg"]
      "base/organized_files/jpg/a.jpg").all
      (fun p => !(["base/organized_files/jpg/a.jpg"] : List String).contains p) = true := by
  have h := destination_paths_unique_amended oStd "base" twoJpgs st0
    ["base/organized_files/jpg/a.jpg"] "base/organized_files/jpg/a.jpg" rfl
    (by decide) (by decide)
  refine ⟨⟨rfl, by decide, by decide⟩, ?_, h.1, h.2.1, h.2.2⟩
  simp only [twoJpgs, oStd, st0, scanDirectory, copyFileToOrganizedLocation, extractArchive,
    ensureDir, pathExists, findFreePath, targetCandidate, destFileName, resolvedExtension,
    detectFileType, getFileExtension, isAllowedFileType, isArchiveFile,
    getFolderNameForExtension, sanitizeFileName, splitExt, strLower, trimB, natToDec,
    natToDecList, natToDecCore, lastIdxOf, allowedFileTypes, signatures, sigMatches, bufAt,
    wsChar, startsWithL]
  decide

/-- C3 (counterexample): during the smart organizer's scanning phase,
outputStructure is still null (the constructor sets it to null at line 37 and
it is assigned only in setupOutputStructure, phase 3 at line 78 — after
scanning, phase 1 at line 66), so the destination check of
shouldSkipDirectory (line 172) cannot fire.  A pre-existing destination root
nested in a source directory is therefore walked and its files collected,
although the very same check would skip that path once outputStructure is
set. -/
theorem nested_destination_walked :
    shouldSkipDirectory (some "src/Organized") true "src/Organized" = true ∧
    shouldSkipDirectory none true "src/Organized" = false ∧
    scanDirectoryRecursive none f0 "src"
        [SEntry.dir "Organized" [SEntry.file "old.pdf" 5]] =
      [("src/Organized/old.pdf", 5)] := by
  refine ⟨by decide, by decide, ?_⟩
  simp only [f0, scanDirectoryRecursive, shouldSkipDirectory, shouldIncludeFile, systemDirs,
    splitDir, splitExt, strLower, lastIdxOf, startsWithL]
  decide

/-- C3 (amended): the allow-list organizer's guard does hold — a directory
named like the output directory is never descended into, wherever it occurs,
so walking any tree equals walking its pruned form.  The smart organizer's
own destination check, by contrast, is inert during its scanning phase: with
outputStructure still null, shouldSkipDirectory reduces to the hidden-name
and system-name tests alone, so a pre-existing destination nested in a
source root is walked and its files re-collected; only once outputStructure
has been set (after scanning) does the check compare the path against the
destination root. -/
theorem output_guard_amended :
    (∀ (o : Options) (basePath : String) (l : List Entry) (st : St),
      scanDirectory o basePath l st = scanDirectory o basePath (pruneOutput o l) st) ∧
    (∀ (eh : Bool) (dirPath : String),
      shouldSkipDirectory none eh dirPath =
        (eh && startsWithL ['.'] (splitDir dirPath).2.data
          || systemDirs.contains (splitDir dirPath).2)) ∧
    (∀ (outputPath : String) (eh : Bool) (dirPath : String),
      (eh && startsWithL ['.'] (splitDir dirPath).2.data) = false →
      systemDirs.contains (splitDir dirPath).2 = false →
      shouldSkipDirectory (some outputPath) eh dirPath =
        startsWithL outputPath.data dirPath.data) := by
  refine ⟨fun o basePath l st => (scan_prune o basePath l st).symm, ?_, ?_⟩
  · intro eh dirPath
    unfold shouldSkipDirectory
    cases h1 : eh && startsWithL ['.'] (splitDir dirPath).2.data with
    | true => simp [h1]
    | false =>
      cases h2 : systemDirs.contains (splitDir dirPath).2 with
      | true =>
        simp [h1, h2]
        simpa using h2
      | false =>
        simp [h1, h2]
        simpa using h2
  · intro op eh dirPath h1 h2
    unfold shouldSkipDirectory
    rw [if_neg (by rw [h1]; exact Bool.false_ne_true),
      if_neg (by rw [h2]; exact Bool.false_ne_true)]

/-- C3 (witness): the path src/Organized is neither hidden nor a system
directory, and once the destination root dest/out is recorded in
outputStructure the skip test compares against it. -/
theorem output_guard_amended_witness :
    ((true && startsWithL ['.'] (splitDir "src/Organized").2.data) = false ∧
     systemDirs.contains (splitDir "src/Organized").2 = false) ∧
    shouldSkipDirectory (some "dest/out") true "src/Organized" =
      startsWithL ("dest/out" : String).data ("src/Organized" : String).data :=
  ⟨⟨by decide, by decide⟩,
   output_guard_amended.2.2 "dest/out" true "src/Organized" (by decide) (by decide)⟩

/-- C4 (counterexample): a JPEG-signature file named photo.txt is placed with
its name rewritten to photo.jpg although the nominal extension txt is not in
the recognized set — the rewrite does not require both kinds recognized, only
the sniffed one. -/
theorem sniffed_kind_rewrites_unrecognized_nominal :
    (copyFileToOrganizedLocation oStd "photo.txt" (some jpegBytes) "base" st0).1 =
      some "base/organized_files/jpg/photo.jpg" ∧
    isAllowedFileType "txt" = false ∧
    getFileExtension "photo.txt" = "txt" := by
  refine ⟨?_, by decide, by decide⟩
  rfl

/-- C4 (amended): the placement path uses the sniffed kind exactly when the
sniffed kind alone is recognized (rewriting the destination name when it
differs from the nominal extension, whether or not the nominal extension is
recognized); when the sniffed kind is not recognized the nominal extension is
used and the name kept. -/
theorem extension_correction_amended (name : String) (bytes : Option (List Nat)) :
    (isAllowedFileType (detectFileType name bytes) = true →
      resolvedExtension name bytes = detectFileType name bytes ∧
      (detectFileType name bytes ≠ getFileExtension name →
        destFileName name bytes =
          sanitizeFileName ((splitExt name).1 ++ "." ++ detectFileType name bytes))) ∧
    (isAllowedFileType (detectFileType name bytes) = false →
      resolvedExtension name bytes = getFileExtension name ∧
      destFileName name bytes = sanitizeFileName name) := by
  constructor
  · intro hD
    have hres : resolvedExtension name bytes = detectFileType name bytes := by
      simp only [resolvedExtension]
      rw [if_pos hD]
    refine ⟨hres, ?_⟩
    intro hne
    simp only [destFileName]
    rw [hres, if_pos (by rw [bne_iff_ne]; exact hne)]
  · intro hD
    have hres : resolvedExtension name bytes = getFileExtension name := by
      simp only [resolvedExtension]
      rw [if_neg (by rw [hD]; exact Bool.false_ne_true)]
    refine ⟨hres, ?_⟩
    simp only [destFileName]
    rw [hres, if_neg (by simp)]

/-- C4 (witness): for the JPEG-signature file named photo.txt the sniffed kind
jpg is recognized and differs from txt, and the destination name is rewritten
to photo.jpg. -/
theorem extension_correction_amended_witness :
    isAllowedFileType (detectFileType "photo.txt" (some jpegBytes)) = true ∧
    detectFileType "photo.txt" (some jpegBytes) ≠ getFileExtension "photo.txt" ∧
    resolvedExtension "photo.txt" (some jpegBytes) = "jpg" ∧
    destFileName "photo.txt" (some jpegBytes) = "photo.jpg" := by
  have h := (extension_correction_amended "photo.txt" (some jpegBytes)).1 (by decide)
  exact ⟨by decide, by decide, h.1.trans (by decide), (h.2 (by decide)).trans (by decide)⟩

/-- C5: expanding a good zip archive of N classifiable files places exactly
those N files in their category folders (in order) plus the archive itself in
its own category, and increments archivesExtracted by exactly one and
filesProcessed by exactly N + 1.  The hypothesis `scratchClear` requires that
nothing pre-exist at or below this archive's scratch path: that is the regime
in which the model's walk of the scratch directory (the archive's content
tree) coincides with fs.readdir of the directory the extraction just created
— with stale content below the scratch path, the program would walk and copy
that content too. -/
theorem archive_roundtrip (o : Options) (basePath : String) (st : St)
    (name : String) (bytes : Option (List Nat)) (content : List Entry)
    (hdry : o.dryRun = false) (hex : o.extractArchives = true)
    (hz : getFileExtension name = "zip")
    (hc : ∀ e ∈ content, plainAllowedFile e = true)
    (hclear : scratchClear (basePath ++ "/" ++ "temp_extract" ++ "/" ++ (splitExt name).1) st) :
    (scanDirectory o basePath [Entry.file name bytes true content] st).2.stats =
      { st.stats with
        filesProcessed := st.stats.filesProcessed + content.length + 1,
        archivesExtracted := st.stats.archivesExtracted + 1 } ∧
    ∃ ps pa,
      (scanDirectory o basePath [Entry.file name bytes true content] st).1 = ps ++ [pa] ∧
      List.Forall₂ (fun e p => inFolder o basePath (entryResolved e) p) content ps ∧
      inFolder o basePath (resolvedExtension name bytes) pa :=
  archive_scan_spec o basePath st name bytes content hdry hex hz hc

/-- C5 (witness): the round trip on one zip with one contained image, from an
empty destination (whose scratch location is trivially clear): two files
processed, one archive extracted. -/
theorem archive_roundtrip_witness :
    oStd.dryRun = false ∧ oStd.extractArchives = true ∧
    getFileExtension "a.zip" = "zip" ∧
    (∀ e ∈ [Entry.file "x.jpg" (some jpegBytes) true []], plainAllowedFile e = true) ∧
    scratchClear ("base" ++ "/" ++ "temp_extract" ++ "/" ++ (splitExt "a.zip").1) st0 ∧
    (scanDirectory oStd "base" zipTree st0).2.stats = ⟨2, 1, 0, 0⟩ ∧
    ∃ ps pa,
      (scanDirectory oStd "base" zipTree st0).1 = ps ++ [pa] ∧
      List.Forall₂ (fun e p => inFolder oStd "base" (entryResolved e) p)
        [Entry.file "x.jpg" (some jpegBytes) true []] ps ∧
      inFolder oStd "base" (resolvedExtension "a.zip" (some zipBytes)) pa := by
  have h := archive_roundtrip oStd "base" st0 "a.zip" (some zipBytes)
    [Entry.file "x.jpg" (some jpegBytes) true []] rfl rfl (by decide) (by decide)
    (by unfold scratchClear; decide)
  exact ⟨rfl, rfl, by decide, by decide, by unfold scratchClear; decide, h.1, h.2⟩

/-- C6 (counterexample): after a failed zip extraction the scratch directory
created for it is still present at the end of the run — it is not cleaned up,
contradicting the cleanup conjunct of the claim. -/
theorem failed_extraction_leaves_scratch_dir :
    "base/temp_extract/bad" ∈
      (scanDirectory oStd "base" [Entry.file "bad.zip" none false []] st0).2.fsDirs := by
  have h := (failed_archive_spec oStd "base" st0 "bad.zip" none [] rfl rfl (by decide)).2.2
  have he : "base" ++ "/" ++ "temp_extract" ++ "/" ++ (splitExt "bad.zip").1 =
      "base/temp_extract/bad" := by decide
  rw [he] at h
  exact h

/-- C6 (amended): a failed extraction does not abort the run and the archive
is still classified and copied into its own category with one error counted —
but the scratch directory partially created for it is left behind, not cleaned
up (cleanup runs only after a successful extraction). -/
theorem failed_extraction_amended (o : Options) (basePath : String) (st : St)
    (name : String) (bytes : Option (List Nat)) (content : List Entry)
    (hdry : o.dryRun = false) (hex : o.extractArchives = true)
    (hz : getFileExtension name = "zip") :
    (∃ pa, (scanDirectory o basePath [Entry.file name bytes false content] st).1 = [pa] ∧
      inFolder o basePath (resolvedExtension name bytes) pa) ∧
    (scanDirectory o basePath [Entry.file name bytes false content] st).2.stats =
      { st.stats with
        filesProcessed := st.stats.filesProcessed + 1,
        errors := st.stats.errors + 1 } ∧
    (basePath ++ "/" ++ "temp_extract" ++ "/" ++ (splitExt name).1) ∈
      (scanDirectory o basePath [Entry.file name bytes false content] st).2.fsDirs :=
  failed_archive_spec o basePath st name bytes content hdry hex hz

/-- C6 (witness): one unreadable zip in a fresh run: still placed, one error,
scratch directory left behind. -/
theorem failed_extraction_amended_witness :
    oStd.dryRun = false ∧ oStd.extractArchives = true ∧
    getFileExtension "bad.zip" = "zip" ∧
    ((∃ pa, (scanDirectory oStd "base" [Entry.file "bad.zip" none false []] st0).1 = [pa] ∧
        inFolder oStd "base" (resolvedExtension "bad.zip" none) pa) ∧
     (scanDirectory oStd "base" [Entry.file "bad.zip" none false []] st0).2.stats =
       ⟨1, 0, 1, 0⟩ ∧
     ("base" ++ "/" ++ "temp_extract" ++ "/" ++ (splitExt "bad.zip").1) ∈
       (scanDirectory oStd "base" [Entry.file "bad.zip" none false []] st0).2.fsDirs) := by
  have h := failed_extraction_amended oStd "base" st0 "bad.zip" none [] rfl rfl (by decide)
  exact ⟨rfl, rfl, by decide, h.1, h.2.1, h.2.2⟩

/-- C7 (counterexample): over a source tree holding one zip with one
classifiable file, the dry-run stats differ from the real-run stats: the dry
run returns a scratch path that was never created, so scanning it fails (one
error) and the contained file is never counted. -/
theorem dryrun_stats_differ_with_archive :
    (scanDirectory oDry "base" [Entry.file "a.zip" (some zipBytes) true
        [Entry.file "x.jpg" (some jpegBytes) true []]] st0).2.stats ≠
    (scanDirectory oStd "base" [Entry.file "a.zip" (some zipBytes) true
        [Entry.file "x.jpg" (some jpegBytes) true []]] st0).2.stats := by
  have h1 := dry_archive_stats oDry "base" st0 "a.zip" (some zipBytes) true
    [Entry.file "x.jpg" (some jpegBytes) true []] rfl rfl (by decide)
  have h2 := (archive_scan_spec oStd "base" st0 "a.zip" (some zipBytes)
    [Entry.file "x.jpg" (some jpegBytes) true []] rfl rfl (by decide) (by decide)).1
  rw [h1, h2]
  decide

/-- C7 (amended): a dry run creates no directory and copies no bytes (the
filesystem part of the state is untouched), and for source trees containing no
archive files its RunStats equal those of the real run; with expandable
archives present the counts differ, as the counterexample shows. -/
theorem dryrun_amended (o : Options) (basePath : String) (l : List Entry) (st : St)
    (hna : hasNoArchiveEntry l = true) :
    ((scanDirectory { o with dryRun := true } basePath l st).2.fsFiles = st.fsFiles ∧
     (scanDirectory { o with dryRun := true } basePath l st).2.fsDirs = st.fsDirs) ∧
    (scanDirectory { o with dryRun := true } basePath l st).2.stats =
      (scanDirectory { o with dryRun := false } basePath l st).2.stats :=
  ⟨scan_dry_fs { o with dryRun := true } basePath rfl l st,
   scan_stats_parity { o with dryRun := true } { o with dryRun := false } basePath
     rfl rfl l st st hna rfl⟩

/-- C7 (witness): an archive-free tree of one document, run dry and real. -/
theorem dryrun_amended_witness :
    hasNoArchiveEntry [Entry.file "doc.pdf" none true []] = true ∧
    (((scanDirectory { oStd with dryRun := true } "base"
        [Entry.file "doc.pdf" none true []] st0).2.fsFiles = st0.fsFiles ∧
      (scanDirectory { oStd with dryRun := true } "base"
        [Entry.file "doc.pdf" none true []] st0).2.fsDirs = st0.fsDirs) ∧
     (scanDirectory { oStd with dryRun := true } "base"
        [Entry.file "doc.pdf" none true []] st0).2.stats =
       (scanDirectory { oStd with dryRun := false } "base"
        [Entry.file "doc.pdf" none true []] st0).2.stats) := by
  have hna : hasNoArchiveEntry [Entry.file "doc.pdf" none true []] = true := by
    simp only [hasNoArchiveEntry]
    decide
  exact ⟨hna, dryrun_amended oStd "base" [Entry.file "doc.pdf" none true []] st0 hna⟩

/-- C8: a file whose resolved (post-sniffing) extension is outside the
allow-list is never copied, no destination folder is created for it, and
skippedFiles increments by exactly one: the state is unchanged except for that
counter. -/
theorem allowlist_skip (o : Options) (name : String) (bytes : Option (List Nat))
    (basePath : String) (st : St)
    (h : isAllowedFileType (resolvedExtension name bytes) = false) :
    copyFileToOrganizedLocation o name bytes basePath st =
      (none, { st with stats :=
        { st.stats with skippedFiles := st.stats.skippedFiles + 1 } }) :=
  copyFile_skip o name bytes basePath st h

/-- C8 (witness): a docx file (unrecognized) in a fresh run is skipped with
skippedFiles going to one and nothing else changing. -/
theorem allowlist_skip_witness :
    isAllowedFileType (resolvedExtension "notes.docx" none) = false ∧
    copyFileToOrganizedLocation oStd "notes.docx" none "base" st0 =
      (none, ⟨[], [], ⟨0, 0, 0, 1⟩⟩) := by
  exact ⟨by decide, allowlist_skip oStd "notes.docx" none "base" st0 (by decide)⟩

/-- C9: classification follows the exact priority of categorizeFile: special
patterns in declaration order, first regex match winning (optionally nested
under a parent category); otherwise category tables in declaration order,
first whose extension set contains the extension winning; otherwise Other,
with the extension (or "no-extension") as subcategory. -/
theorem categorize_priority (fileName : String) :
    (∀ i (hi : i < specialPatterns.length),
      matchesSpecial fileName (specialPatterns.get ⟨i, hi⟩) = true →
      (∀ j (hj : j < i),
        matchesSpecial fileName (specialPatterns.get ⟨j, Nat.lt_trans hj hi⟩) = false) →
      categorizeFile fileName =
        ⟨(specialPatterns.get ⟨i, hi⟩).1, (specialPatterns.get ⟨i, hi⟩).2.2, true⟩) ∧
    ((∀ pat ∈ specialPatterns, matchesSpecial fileName pat = false) →
      (∀ i (hi : i < categoriesTable.length),
        (categoriesTable.get ⟨i, hi⟩).2.contains (categorizerExtension fileName) = true →
        (∀ j (hj : j < i),
          (categoriesTable.get ⟨j, Nat.lt_trans hj hi⟩).2.contains
            (categorizerExtension fileName) = false) →
        categorizeFile fileName = ⟨(categoriesTable.get ⟨i, hi⟩).1, none, false⟩) ∧
      ((∀ c ∈ categoriesTable, c.2.contains (categorizerExtension fileName) = false) →
        categorizeFile fileName =
          ⟨"Other",
           some (if categorizerExtension fileName = "" then "no-extension"
             else categorizerExtension fileName), false⟩)) := by
  constructor
  · intro i hi hp hmin
    simp only [categorizeFile]
    rw [find?_eq_of_first (fun pat => matchesSpecial fileName pat) specialPatterns i hi hp hmin]
  · intro hnone
    have hfn : specialPatterns.find? (fun pat => matchesSpecial fileName pat) = none :=
      List.find?_eq_none.mpr (fun pat hm => by
        intro hx
        rw [hnone pat hm] at hx
        exact Bool.false_ne_true hx)
    constructor
    · intro i hi hp hmin
      simp only [categorizeFile]
      rw [hfn, find?_eq_of_first (fun c => c.2.contains (categorizerExtension fileName))
        categoriesTable i hi hp hmin]
    · intro hnone2
      have hfn2 : categoriesTable.find?
          (fun c => c.2.contains (categorizerExtension fileName)) = none :=
        List.find?_eq_none.mpr (fun c hm => by
          intro hx
          rw [hnone2 c hm] at hx
          exact Bool.false_ne_true hx)
      simp only [categorizeFile]
      rw [hfn, hfn2]

/-- C9 (witness): Screenshot_2024.png matches the first special pattern and is
classified Screenshots under Images, ahead of the Images extension table. -/
theorem categorize_priority_witness :
    matchesSpecial "Screenshot_2024.png" (specialPatterns.get ⟨0, by decide⟩) = true ∧
    categorizeFile "Screenshot_2024.png" = ⟨"Screenshots", some "Images", true⟩ := by
  refine ⟨by decide, ?_⟩
  exact (categorize_priority "Screenshot_2024.png").1 0 (by decide) (by decide)
    (fun j hj => absurd hj (Nat.not_lt_zero j))

/-- C10: every directory whose base name equals the configured output
directory name is skipped by the walker wherever it appears in any source
tree, even when it is not this run's destination: inserting such a directory
anywhere changes nothing about the walk, so files inside it are never
classified or copied. -/
theorem output_named_dirs_skipped_everywhere (o : Options) (basePath : String)
    (children pre post : List Entry) (st : St) :
    scanDirectory o basePath (pre ++ Entry.dir o.outputDir children :: post) st =
      scanDirectory o basePath (pre ++ post) st :=
  scan_insert_output_dir o basePath children pre post st
